import Mathlib

/-!
Verification development for the rws-framework/ai-tools repository.

The development shallowly embeds the three core subsystems:

* `TextChunker` (src/src/services/TextChunker.ts): recursive separator-based
  text chunking with overlap reconstruction.  Text is modelled as `List Char`.
  JavaScript's floating-point token estimation `Math.ceil(len / 3.7)` and the
  character budget `Math.floor(maxTokens * 3.5)` are modelled with exact
  rational arithmetic over `Nat` (`(10*len+36)/37` and `7*mt/2`), which agrees
  with the double-precision computation on all realistic sizes.
  The `while` loop of `forceSplitByCharacterLimit` can fail to make progress
  (the JS code then loops forever); it is modelled with an explicit fuel of
  `text.length + 1` and returns `none` exactly when the JS loop diverges.

* `OpenAIRateLimitingService` (src/unnamed/part_003): adaptive token-bucketed
  batch execution with retry/backoff.  The p-queue concurrency is irrelevant to
  the claims (each batch writes a disjoint slice of the result array), so
  batches are executed sequentially in batch order.  `Math.random()*300`
  jitter is modelled by an arbitrary function `jit : Nat → ℚ`.

* `OptimizedVectorSearchService` (src/src/services/OptimizedVectorSearchService.ts):
  linear-scan cosine-similarity search.  The numeric value
  `dot/(‖a‖·‖b‖)` involves `Math.sqrt` and is abstracted by a parameter
  `simVal`; the length-mismatch throw of `cosineSimilarity`
  (src/src/services/LangChainVectorStoreService.ts) is modelled exactly.
-/

set_option maxRecDepth 100000

namespace AiTools

/-! ## Text model: JavaScript string primitives over `List Char` -/

/-- Whitespace recognised by `String.prototype.trim` (the ASCII part that the
repository's texts use). -/
def isWsChar (c : Char) : Bool :=
  c == ' ' || c == '\t' || c == '\n' || c == '\r'

/-- Model of `s.trimStart()`. -/
def trimStart (l : List Char) : List Char :=
  l.dropWhile isWsChar

/-- Model of `s.trimEnd()`. -/
def trimEnd (l : List Char) : List Char :=
  (l.reverse.dropWhile isWsChar).reverse

/-- Model of `s.trim()`. -/
def trim (l : List Char) : List Char :=
  trimEnd (trimStart l)

/-- Whether `l` contains a non-whitespace character (equivalently, whether
`l.trim()` is non-empty). -/
def hasNonWs (l : List Char) : Bool :=
  l.any (fun c => !isWsChar c)

/-- The inter-chunk overlap relation of the specification: chunk `b` begins
with a non-empty prefix drawn from the tail (a suffix) of chunk `a`. -/
def overlapRel (a b : List Char) : Prop :=
  ∃ k, 0 < k ∧ k ≤ b.length ∧ b.take k <:+ a

instance (a b : List Char) : Decidable (overlapRel a b) :=
  decidable_of_iff (∃ k, k < b.length + 1 ∧ 0 < k ∧ k ≤ b.length ∧ b.take k <:+ a)
    (by constructor
        · rintro ⟨k, _, h1, h2, h3⟩
          exact ⟨k, h1, h2, h3⟩
        · rintro ⟨k, h1, h2, h3⟩
          exact ⟨k, by omega, h1, h2, h3⟩)

/-- Model of `text.substring(a, b)` for `a ≤ b` (the only way the chunker
calls it). -/
def substring (l : List Char) (a b : Nat) : List Char :=
  (l.take b).drop a

/-- Model of `JsString.split(sep)` for a non-empty separator: split on each leftmost
non-overlapping occurrence.  Fuel-driven so that the definition is structural
(the initial fuel `text.length` is always sufficient for a non-empty `sep`). -/
def splitOnAux (sep : List Char) : Nat → List Char → List (List Char)
  | _, [] => [[]]
  | 0, t => [t]
  | fuel + 1, c :: rest =>
    if sep.isPrefixOf (c :: rest) then
      [] :: splitOnAux sep fuel ((c :: rest).drop sep.length)
    else
      match splitOnAux sep fuel rest with
      | [] => [[c]]
      | s :: ss => (c :: s) :: ss

/-- Model of `text.split(separator)` for a non-empty separator string. -/
def splitOnSep (sep text : List Char) : List (List Char) :=
  splitOnAux sep text.length text

/-! ## TextChunker (src/src/services/TextChunker.ts) -/

/-- Model of `estimateTokens`: `Math.ceil(text.length / 3.7)`, i.e. `⌈10·len/37⌉`. -/
def estimateTokens (text : List Char) : Nat :=
  (10 * text.length + 36) / 37

/-- Model of `maxCharsPerChunk`: `Math.floor(maxTokens * 3.5)`, i.e. `⌊7·mt/2⌋`. -/
def maxCharsPerChunk (maxTokens : Nat) : Nat :=
  7 * maxTokens / 2

/-- Model of `DEFAULT_SEPARATORS` of the chunker, most preferred first, ending in the
character-level fallback `''`. -/
def DEFAULT_SEPARATORS : List (List Char) :=
  ["\n\n".toList, "\n".toList, ". ".toList, "! ".toList, "? ".toList,
   "; ".toList, ", ".toList, " ".toList, "".toList]

/-- Model of `shouldPreserveSeparator`: sentence endings and meaningful punctuation are
re-appended to the left fragment. -/
def shouldPreserveSeparator (sep : List Char) : Bool :=
  sep == ". ".toList || sep == "! ".toList || sep == "? ".toList ||
    sep == "; ".toList

/-- Model of `withSeparator`: a non-final fragment with the separator re-appended when
it is a preserved one. -/
def withSep (sep s : List Char) : List Char :=
  s ++ (if shouldPreserveSeparator sep then sep else [])

/-- The loop body of `splitTextBySeparator` over the raw splits: every
fragment except the last gets the separator re-appended (when preserved) and
is pushed trimmed when non-empty. -/
def attachSeps (sep : List Char) : List (List Char) → List (List Char)
  | [] => []
  | [last] => if (trim last).isEmpty then [] else [trim last]
  | s :: s' :: rest =>
    (if (trim (withSep sep s)).isEmpty then [] else [trim (withSep sep s)]) ++
      attachSeps sep (s' :: rest)

/-- Model of `splitTextBySeparator(text, separator)`. -/
def splitTextBySeparator (sep text : List Char) : List (List Char) :=
  if sep.isEmpty then
    text.map (fun c => [c])
  else if !(decide (sep <:+: text)) then
    [text]
  else
    (attachSeps sep (splitOnSep sep text)).filter (fun s => !s.isEmpty)

/-- The position update of `forceSplitByCharacterLimit`'s loop:
`position = endPosition - overlap`, clamped at `0` (`Nat` subtraction performs
exactly the JS clamp `if (position < 0) position = 0`). -/
def forceSplitNextPos (pos maxChars overlap : Nat) : Nat :=
  pos + maxChars - overlap

/-- The `while (position < text.length)` loop of `forceSplitByCharacterLimit`.
`none` signals fuel exhaustion, which (with the fuel used below) happens
exactly when the JS loop never terminates. -/
def forceSplitGo (maxChars overlap : Nat) (text : List Char) :
    Nat → Nat → Option (List (List Char))
  | 0, pos => if pos < text.length then none else some []
  | fuel + 1, pos =>
    if pos < text.length then
      if text.length ≤ pos + maxChars then
        some [trim (text.drop pos)]
      else
        (forceSplitGo maxChars overlap text fuel
            (forceSplitNextPos pos maxChars overlap)).map
          (fun rest2 => trim (substring text pos (pos + maxChars)) :: rest2)
    else some []

/-- Model of `forceSplitByCharacterLimit(text, maxChars, overlap)`, including the final
`filter(chunk => chunk.length > 0)`. -/
def forceSplitByCharacterLimit (text : List Char) (maxChars overlap : Nat) :
    Option (List (List Char)) :=
  (forceSplitGo maxChars overlap text (text.length + 1) 0).map
    (fun cs => cs.filter (fun c => !c.isEmpty))

/-- Model of `parts.join(' ')` where `parts` is `[chunk]` for an empty accumulator and
`[currentChunk, chunk]` otherwise. -/
def joinParts (cc chunk : List Char) : List Char :=
  if cc.isEmpty then chunk else cc ++ ' ' :: chunk

/-- The merge loop of `mergeChunksWithOverlap`: greedily join consecutive
chunks with a single space while the result stays within `maxChars`.  `cc` is
the JS `currentChunk` accumulator. -/
def mergeCore (maxChars : Nat) : List (List Char) → List Char → List (List Char)
  | [], cc => if (trim cc).isEmpty then [] else [trim cc]
  | chunk :: rest, cc =>
    if (joinParts cc chunk).length ≤ maxChars then
      mergeCore maxChars rest (joinParts cc chunk)
    else
      (if cc.isEmpty then [] else [trim cc]) ++ mergeCore maxChars rest chunk

/-- Model of `extractOverlap(text, overlapLength)`: the trailing `overlapLength`
characters of `text`, advanced to the next word boundary when one exists. -/
def extractOverlap (text : List Char) (overlapLength : Nat) : List Char :=
  if text.length ≤ overlapLength then text
  else
    match (text.drop (text.length - overlapLength)).findIdx? (fun c => c == ' ') with
    | none => text.drop (text.length - overlapLength)
    | some j => text.drop (text.length - overlapLength + j + 1)

/-- Model of `chunkWithOverlap`: prefix a chunk with the previous chunk's overlap text
unless that text is empty or the chunk already starts with it. -/
def overlapPrefixed (prevOv c : List Char) : List Char :=
  if !prevOv.isEmpty && !(prevOv.isPrefixOf c) then prevOv ++ ' ' :: c else c

/-- The `i > 0` iterations of `addOverlapsBetweenChunks`: each chunk is
prefixed with the previous original chunk's overlap unless it already starts
with it, then pushed trimmed.  `prev` is the previous original chunk. -/
def addOvGo (overlap : Nat) : List Char → List (List Char) → List (List Char)
  | _, [] => []
  | prev, c :: cs =>
    trim (overlapPrefixed (extractOverlap prev overlap) c) :: addOvGo overlap c cs

/-- Model of `addOverlapsBetweenChunks(chunks, overlap)`. -/
def addOverlapsBetweenChunks (chunks : List (List Char)) (overlap : Nat) :
    List (List Char) :=
  if chunks.length ≤ 1 || overlap == 0 then chunks
  else
    match chunks with
    | [] => []
    | c :: cs => trim c :: addOvGo overlap c cs

/-- Model of `mergeChunksWithOverlap(chunks, maxChars, overlap)`. -/
def mergeChunksWithOverlap (chunks : List (List Char)) (maxChars overlap : Nat) :
    List (List Char) :=
  if chunks.isEmpty then []
  else addOverlapsBetweenChunks (mergeCore maxChars chunks []) overlap

/-- Model of `recursiveSplit(text, maxChars, overlap, separators)`.  The recursion is
structural on the separator list (`newSeparators` is the tail whenever the
recursive branch is taken).  `none` propagates a diverging
`forceSplitByCharacterLimit` call. -/
def recursiveSplit (maxChars overlap : Nat) :
    List (List Char) → List Char → Option (List (List Char))
  | [], text =>
    (if text.length ≤ maxChars then some [text]
     else forceSplitByCharacterLimit text maxChars overlap).map
      (fun cs => mergeChunksWithOverlap cs maxChars overlap)
  | sep :: rest, text =>
    ((splitTextBySeparator sep text).mapM (fun p =>
        if p.length ≤ maxChars then some [p]
        else if sep.isEmpty || rest.isEmpty then
          forceSplitByCharacterLimit p maxChars overlap
        else recursiveSplit maxChars overlap rest p)).map
      (fun css => mergeChunksWithOverlap css.flatten maxChars overlap)

/-- Model of `TextChunker.chunkText(text, maxTokens, overlap)` with the default
separator list. -/
def chunkText (text : List Char) (maxTokens overlap : Nat) :
    Option (List (List Char)) :=
  if (trim text).isEmpty then some []
  else if estimateTokens text ≤ maxTokens then some [trim text]
  else recursiveSplit (maxCharsPerChunk maxTokens) overlap DEFAULT_SEPARATORS text

/-! ## OpenAIRateLimitingService (src/unnamed/part_003)

Errors carry the HTTP status the code reads from
`err?.status || err?.response?.status` (collapsed into one optional field).
Sleeping is modelled by recording each waited duration; `Math.random()*300`
jitter is an arbitrary function `jit : Nat → ℚ` of the attempt number. -/

/-- A thrown provider error as the retry classifier sees it. -/
structure JsError where
  status : Option Nat
deriving DecidableEq, Repr

/-- The classifier of `callWithRetry`:
`status === 429 || (status >= 500 && status < 600)`. -/
def isRetryableStatus (st : Option Nat) : Bool :=
  match st with
  | some s => s == 429 || (decide (500 ≤ s) && decide (s < 600))
  | none => false

/-- Model of `DEFAULT_CONFIG` of `OpenAIRateLimitingService` (`rpm` is never read by
`executeWithRateLimit`; it is kept for completeness). -/
structure RateLimitCfg where
  rpm : Nat
  tpm : Nat
  concurrency : Nat
  maxRetries : Nat
  baseBackoffMs : ℚ
  safetyFactor : ℚ
deriving Repr

/-- The default configuration values. -/
def DEFAULT_CONFIG : RateLimitCfg :=
  { rpm := 500, tpm := 300000, concurrency := 4, maxRetries := 6,
    baseBackoffMs := 500, safetyFactor := 3 / 4 }

/-- Model of `callWithRetry(fn, attempt)`, with the executor indexed by the attempt
number and the backoff sleeps recorded.  The fuel `maxRetries + 1 - attempt`
used by the wrapper below always suffices because the attempt counter is
bounded by the `attempt >= maxRetries` check. -/
def callWithRetryGo {A : Type} (mr : Nat) (base : ℚ) (jit : Nat → ℚ)
    (exec : Nat → Except JsError A) : Nat → Nat → Except JsError A × List ℚ
  | 0, attempt => (exec attempt, [])
  | fuel + 1, attempt =>
    match exec attempt with
    | .ok a => (.ok a, [])
    | .error e =>
      if isRetryableStatus e.status && decide (attempt < mr) then
        let d := min 60000 (base * 2 ^ attempt) + jit attempt
        let r := callWithRetryGo mr base jit exec fuel (attempt + 1)
        (r.1, d :: r.2)
      else (.error e, [])

/-- Model of `callWithRetry(fn)` from attempt `0`. -/
def callWithRetry {A : Type} (mr : Nat) (base : ℚ) (jit : Nat → ℚ)
    (exec : Nat → Except JsError A) : Except JsError A × List ℚ :=
  callWithRetryGo mr base jit exec (mr + 1) 0

/-- Model of `maxTokensPerCall`: `max(1_000, floor(floor(tpm·safetyFactor/concurrency) / 60))`. -/
def maxTokensPerCall (cfg : RateLimitCfg) : Nat :=
  let tpmw : Int := ⌊((cfg.tpm : ℚ) * cfg.safetyFactor / (cfg.concurrency : ℚ))⌋
  max 1000 (⌊(tpmw : ℚ) / 60⌋).toNat

/-- The generator `chunkByToken`: greedily accumulate items until the next one
would push the running token count past the ceiling. -/
def chunkByTokenGo {T : Type} (count : T → Nat) (maxT : Nat) :
    List T → List T → Nat → List (List T)
  | [], batch, _ => if batch.isEmpty then [] else [batch]
  | it :: its, batch, tokens =>
    if !batch.isEmpty && decide (maxT < tokens + count it) then
      batch :: chunkByTokenGo count maxT its [it] (count it)
    else
      chunkByTokenGo count maxT its (batch ++ [it]) (tokens + count it)

/-- Model of `chunkByToken(items, maxTokensPerCall, tokenExtractor)`. -/
def chunkByToken {T : Type} (count : T → Nat) (maxT : Nat) (items : List T) :
    List (List T) :=
  chunkByTokenGo count maxT items [] 0

/-- The loop of `fallbackChunking`; fuel `items.length` always suffices
because every step consumes at least one item. -/
def fallbackGo {T : Type} (per : Nat) : Nat → List T → List (List T)
  | _, [] => []
  | 0, l => [l]
  | fuel + 1, l => l.take per :: fallbackGo per fuel (l.drop per)

/-- Model of `fallbackChunking(items, itemsPerBatch)`. -/
def fallbackChunking {T : Type} (per : Nat) (items : List T) : List (List T) :=
  fallbackGo per items.length items

/-- The `batchStarts` bookkeeping: each batch is paired with its starting
offset into the output array. -/
def batchStarts {T : Type} (idx : Nat) : List (List T) → List (Nat × List T)
  | [] => []
  | b :: bs => (idx, b) :: batchStarts (idx + b.length) bs

/-- The overwrite part of the result scatter: `results[i] = batchResults[i]`
from the current position on (writing past the end grows the array, as JS
assignment does). -/
def writeFill {R : Type} : List R → List (Option R) → List (Option R)
  | [], res => res
  | r :: rs, [] => some r :: writeFill rs []
  | r :: rs, _ :: res => some r :: writeFill rs res

/-- Model of `results[meta.start + i] = batchResults[i]` for all `i`: scatter a batch's
results into the output array starting at offset `meta.start`. -/
def writeAt {R : Type} : Nat → List R → List (Option R) → List (Option R)
  | 0, rs, res => writeFill rs res
  | k + 1, rs, [] => none :: writeAt k rs []
  | k + 1, rs, x :: res => x :: writeAt k rs res

/-- The `for (attempt = 0; attempt < 6; attempt++)` adaptive-shrink loop of
one queued batch task.  `ok none` is the loop falling through all 6
iterations without a `break` (nothing written); `ok (some rs)` is a `break`
after writing `rs`. -/
def runBatchAdaptive {T R : Type} (cwr : List T → Except JsError (List R)) :
    Nat → List T → Except JsError (Option (List R))
  | 0, _ => .ok none
  | n + 1, ab =>
    match cwr ab with
    | .ok rs => .ok (some rs)
    | .error e =>
      if e.status == some 429 then
        if ab.length ≤ 1 then .error e
        else runBatchAdaptive cwr n (ab.take ((ab.length + 1) / 2))
      else .error e

/-- Sequential execution of the queued batch tasks (each batch writes a
disjoint precomputed slice of `results`, so the p-queue's interleaving cannot
change the outcome; a rejected task rejects the whole `Promise.all`). -/
def execBatchesGo {T R : Type} (cwr : List T → Except JsError (List R)) :
    List (Nat × List T) → List (Option R) → Except JsError (List (Option R))
  | [], res => .ok res
  | (start, b) :: ms, res =>
    match runBatchAdaptive cwr 6 b with
    | .error e => .error e
    | .ok none => execBatchesGo cwr ms res
    | .ok (some rs) => execBatchesGo cwr ms (writeAt start rs res)

/-- Model of `executeWithRateLimit(items, executor, tokenExtractor)`.
`hasTokenizer` is the JS guard `this.tokenizer && tokenExtractor`;
`tokCount` is `countTokens(tokenExtractor(item))`; the executor is a
deterministic function of the batch it is called with. -/
def executeWithRateLimit {T R : Type} (cfg : RateLimitCfg) (jit : Nat → ℚ)
    (hasTokenizer : Bool) (tokCount : T → Nat)
    (executor : List T → Except JsError (List R)) (items : List T) :
    Except JsError (List (Option R)) :=
  let mtpc := maxTokensPerCall cfg
  let batches := if hasTokenizer then chunkByToken tokCount mtpc items
    else fallbackChunking 128 items
  execBatchesGo
    (fun b => (callWithRetry cfg.maxRetries cfg.baseBackoffMs jit
        (fun _ => executor b)).1)
    (batchStarts 0 batches) (List.replicate items.length none)

/-! ## OptimizedVectorSearchService
(src/src/services/OptimizedVectorSearchService.ts)

The cosine numerator/denominator involve `Math.sqrt`, so the numeric value of
a same-length comparison is abstracted as a parameter `simVal`; the
`'Vectors must have the same length'` throw of
`LangChainEmbeddingService.cosineSimilarity` is modelled exactly.
`Date.now()` (used only in the fallback `chunkId`) is a parameter `now`. -/

/-- One pre-embedded chunk; `embedding = none` models a missing or non-array
`chunk.embedding`, and `metaId` models `chunk.metadata?.id`. -/
structure VChunk where
  content : String
  embedding : Option (List ℚ)
  metaId : Option String
deriving DecidableEq, Repr

/-- One `knowledgeVectors` entry. -/
structure KnowledgeVector where
  knowledgeId : String
  chunks : List VChunk
deriving DecidableEq, Repr

/-- A scored search candidate (`IOptimizedSearchResult`). -/
structure Candidate where
  content : String
  score : ℚ
  metaId : Option String
  knowledgeId : String
  chunkId : String
deriving DecidableEq, Repr

/-- Model of `IOptimizedSearchResponse` (the wall-clock `searchTime` diagnostic is not
modelled and reported as `0`). -/
structure SearchResponse where
  results : List Candidate
  searchTime : Nat
  totalCandidates : Nat
deriving DecidableEq, Repr

/-- Model of `cosineSimilarity(vecA, vecB)`: throws on a length mismatch, otherwise
returns the (abstracted) similarity value. -/
def cosineSimilarity (simVal : List ℚ → List ℚ → ℚ) (a b : List ℚ) :
    Except String ℚ :=
  if a.length = b.length then .ok (simVal a b)
  else .error "Vectors must have the same length"

/-- The fallback chunk id `knowledgeId + '_chunk_' + Date.now()`. -/
def chunkIdOf (ch : VChunk) (kid : String) (now : Nat) : String :=
  match ch.metaId with
  | some i => i
  | none => kid ++ "_chunk_" ++ toString now

/-- The inner `for (const chunk of knowledgeVector.chunks)` scan of one
knowledge vector: counts every chunk, skips chunks without a valid embedding,
and keeps candidates whose similarity is `>= threshold` (inclusive). -/
def scanChunks (simVal : List ℚ → List ℚ → ℚ) (qe : List ℚ) (thr : ℚ)
    (kid : String) (now : Nat) :
    List VChunk → Except String (List Candidate × Nat)
  | [] => .ok ([], 0)
  | ch :: rest =>
    match ch.embedding with
    | none => (scanChunks simVal qe thr kid now rest).map
        (fun p => (p.1, p.2 + 1))
    | some emb =>
      match cosineSimilarity simVal qe emb with
      | .error e => .error e
      | .ok s =>
        (scanChunks simVal qe thr kid now rest).map
          (fun p => ((if thr ≤ s then
              [{ content := ch.content, score := s, metaId := ch.metaId,
                 knowledgeId := kid, chunkId := chunkIdOf ch kid now }]
            else []) ++ p.1, p.2 + 1))

/-- The outer scan over every `knowledgeVectors` entry, flattening the
candidate lists in encounter order and summing the scanned counts. -/
def scanKVs (simVal : List ℚ → List ℚ → ℚ) (qe : List ℚ) (thr : ℚ) (now : Nat) :
    List KnowledgeVector → Except String (List Candidate × Nat)
  | [] => .ok ([], 0)
  | kv :: rest =>
    match scanChunks simVal qe thr kv.knowledgeId now kv.chunks with
    | .error e => .error e
    | .ok (cs, n) =>
      (scanKVs simVal qe thr now rest).map
        (fun p => (cs ++ p.1, n + p.2))

/-- Stable insertion into a descending-by-score list: an element is placed
before the first strictly smaller (or equal-and-later) score.  A stable sort
is extensionally unique, so this models V8's stable
`sort((a, b) => b.score - a.score)` exactly. -/
def insertDesc (c : Candidate) : List Candidate → List Candidate
  | [] => [c]
  | x :: xs => if x.score ≤ c.score then c :: x :: xs else x :: insertDesc c xs

/-- The stable descending sort `candidates.sort((a, b) => b.score - a.score)`. -/
def sortByScoreDesc : List Candidate → List Candidate
  | [] => []
  | x :: xs => insertDesc x (sortByScoreDesc xs)

/-- The query-embedding cache, a JS `Map` in insertion order. -/
def Cache : Type := List (String × List ℚ)

/-- Model of `maxCacheSize` of `OptimizedVectorSearchService`. -/
def maxCacheSize : Nat := 100

/-- Model of `Map.get`-by-key. -/
def cacheLookup (cache : Cache) (k : String) : Option (List ℚ) :=
  match cache with
  | [] => none
  | (k', v) :: rest => if k' == k then some v else cacheLookup rest k

/-- Model of `Map.set`: replace in place when the key exists, otherwise append (JS maps
keep insertion order and keep an updated key's position). -/
def cacheSet (cache : Cache) (k : String) (v : List ℚ) : Cache :=
  match cache with
  | [] => [(k, v)]
  | (k', v') :: rest =>
    if k' == k then (k, v) :: rest else (k', v') :: cacheSet rest k v

/-- Model of `getQueryEmbedding(query)`: consult the cache; on a miss, embed, evict the
oldest entry when the cache is at `maxCacheSize`, then insert. -/
def getQueryEmbedding (embedder : String → List ℚ) (cache : Cache)
    (q : String) : List ℚ × Cache :=
  match cacheLookup cache q with
  | some v => (v, cache)
  | none =>
    (embedder q,
     cacheSet (if maxCacheSize ≤ cache.length then cache.drop 1 else cache)
       q (embedder q))

/-- Model of `IOptimizedSearchRequest` (optional fields carry their defaults via
`getD` at the use site). -/
structure OptSearchRequest where
  query : String
  knowledgeVectors : List KnowledgeVector
  maxResults : Option Nat
  threshold : Option ℚ

/-- Model of `searchSimilar(request)`.  Returns the response (or the propagated error)
together with the updated cache — the cache update from `getQueryEmbedding`
persists even when a later similarity computation throws, as it does in JS. -/
def searchSimilar (simVal : List ℚ → List ℚ → ℚ) (embedder : String → List ℚ)
    (now : Nat) (cache : Cache) (req : OptSearchRequest) :
    Except String SearchResponse × Cache :=
  match scanKVs simVal (getQueryEmbedding embedder cache req.query).1
      (req.threshold.getD (1 / 10)) now req.knowledgeVectors with
  | .error e => (.error e, (getQueryEmbedding embedder cache req.query).2)
  | .ok (cands, total) =>
    (.ok { results := (sortByScoreDesc cands).take (req.maxResults.getD 5),
           searchTime := 0, totalCandidates := total },
     (getQueryEmbedding embedder cache req.query).2)

/-- Model of `searchWithEmbedding` (the pre-computed-embedding variant used by
`batchSearch`). -/
def searchWithEmbedding (simVal : List ℚ → List ℚ → ℚ) (now : Nat)
    (qe : List ℚ) (kvs : List KnowledgeVector) (maxResults : Nat) (thr : ℚ) :
    Except String SearchResponse :=
  match scanKVs simVal qe thr now kvs with
  | .error e => .error e
  | .ok (cands, total) =>
    .ok { results := (sortByScoreDesc cands).take maxResults,
          searchTime := 0, totalCandidates := total }

/-- The per-query loop of `batchSearch`: cache the pre-computed embedding
(without any size check) and search with it. -/
def batchSearchGo (simVal : List ℚ → List ℚ → ℚ) (now : Nat)
    (kvs : List KnowledgeVector) (maxResults : Nat) (thr : ℚ) :
    List (String × List ℚ) → Cache →
    Except String (List (String × SearchResponse)) × Cache
  | [], cache => (.ok [], cache)
  | (q, e) :: rest, cache =>
    let cache' := cacheSet cache q e
    match searchWithEmbedding simVal now e kvs maxResults thr with
    | .error err => (.error err, cache')
    | .ok resp =>
      match batchSearchGo simVal now kvs maxResults thr rest cache' with
      | (r, cache'') => (r.map (fun rs => (q, resp) :: rs), cache'')

/-- Model of `batchSearch(queries, knowledgeVectors, maxResults, threshold)`:
embed all queries, then run the per-query loop. -/
def batchSearch (simVal : List ℚ → List ℚ → ℚ) (embedder : String → List ℚ)
    (now : Nat) (cache : Cache) (queries : List String)
    (kvs : List KnowledgeVector) (maxResults : Nat) (thr : ℚ) :
    Except String (List (String × SearchResponse)) × Cache :=
  let embs := queries.map embedder
  batchSearchGo simVal now kvs maxResults thr (queries.zip embs) cache

/-- The filter object of `IVectorSearchRequest` (only `knowledgeIds` is read
by `searchSimilarCompat`). -/
structure SearchFilter where
  knowledgeIds : Option (List String)

/-- Model of `IVectorSearchRequest`. -/
structure CompatRequest where
  query : String
  maxResults : Option Nat
  similarityThreshold : Option ℚ
  filter : Option SearchFilter

/-- An `ISearchResult` as produced by `searchSimilarCompat`. -/
structure SearchResultOut where
  content : String
  score : ℚ
  metaId : Option String
  chunkId : String
  knowledgeId : String
deriving DecidableEq, Repr

/-- Model of `IVectorSearchResponse`. -/
structure CompatResponse where
  results : List SearchResultOut
  totalResults : Nat
deriving DecidableEq, Repr

/-- The knowledge-id allow-list filter applied by `searchSimilarCompat`
before delegating. -/
def compatFilter (filter? : Option SearchFilter)
    (kvs : List KnowledgeVector) : List KnowledgeVector :=
  match filter? with
  | none => kvs
  | some f => kvs.filter (fun kv =>
      match f.knowledgeIds with
      | some ids => if ids.isEmpty then true else ids.contains kv.knowledgeId
      | none => true)

/-- The `IOptimizedSearchRequest` that `searchSimilarCompat` builds from an
`IVectorSearchRequest` (defaults `maxResults = 10`,
`similarityThreshold = 0.1`). -/
def compatRequestOf (req : CompatRequest) (kvs : List KnowledgeVector) :
    OptSearchRequest :=
  { query := req.query, knowledgeVectors := compatFilter req.filter kvs,
    maxResults := some (req.maxResults.getD 10),
    threshold := some (req.similarityThreshold.getD (1 / 10)) }

/-- Model of `searchSimilarCompat(request, knowledgeVectors)`: filter the knowledge
vectors, delegate to `searchSimilar`, and catch every error into the empty
response (the `try`/`catch` of the source method). -/
def searchSimilarCompat (simVal : List ℚ → List ℚ → ℚ)
    (embedder : String → List ℚ) (now : Nat) (cache : Cache)
    (req : CompatRequest) (kvs : List KnowledgeVector) :
    CompatResponse × Cache :=
  match searchSimilar simVal embedder now cache (compatRequestOf req kvs) with
  | (.ok resp, cache') =>
    ({ results := resp.results.map (fun r =>
          { content := r.content, score := r.score, metaId := r.metaId,
            chunkId := r.chunkId, knowledgeId := r.knowledgeId }),
       totalResults := resp.results.length }, cache')
  | (.error _, cache') => ({ results := [], totalResults := 0 }, cache')

/-! ## Lemmas about the string primitives -/

theorem dropWhile_idem (p : Char → Bool) (l : List Char) :
    (l.dropWhile p).dropWhile p = l.dropWhile p := by
  cases h : l.dropWhile p with
  | nil => rfl
  | cons c t =>
    have hc : p c = false := by
      have hw := List.head_dropWhile_not p l (by simp [h])
      simpa [h] using hw
    simp [List.dropWhile_cons, hc]

theorem trimStart_suffix (l : List Char) : trimStart l <:+ l :=
  ⟨l.takeWhile isWsChar, List.takeWhile_append_dropWhile isWsChar l⟩

theorem prefix_trimEnd (l : List Char) : trimEnd l <+: l := by
  refine ⟨(l.reverse.takeWhile isWsChar).reverse, ?_⟩
  show (l.reverse.dropWhile isWsChar).reverse ++
      (l.reverse.takeWhile isWsChar).reverse = l
  rw [← List.reverse_append, List.takeWhile_append_dropWhile,
    List.reverse_reverse]

theorem trimStart_length_le (l : List Char) :
    (trimStart l).length ≤ l.length :=
  (trimStart_suffix l).length_le

theorem trimEnd_length_le (l : List Char) : (trimEnd l).length ≤ l.length :=
  (prefix_trimEnd l).length_le

theorem trim_length_le (l : List Char) : (trim l).length ≤ l.length :=
  le_trans (trimEnd_length_le _) (trimStart_length_le l)

theorem trimStart_eq_nil_iff {l : List Char} :
    trimStart l = [] ↔ ∀ c ∈ l, isWsChar c := by
  simp [trimStart, List.dropWhile_eq_nil_iff]

theorem hasNonWs_iff {l : List Char} :
    hasNonWs l = true ↔ ∃ c ∈ l, ¬isWsChar c = true := by
  simp [hasNonWs, List.any_eq_true]

theorem trimStart_ne_nil {l : List Char} (h : hasNonWs l = true) :
    trimStart l ≠ [] := by
  intro hnil
  obtain ⟨c, hc, hnw⟩ := hasNonWs_iff.mp h
  exact hnw (trimStart_eq_nil_iff.mp hnil c hc)

theorem hasNonWs_reverse (l : List Char) :
    hasNonWs l.reverse = hasNonWs l := by
  simp [hasNonWs]

theorem trimEnd_ne_nil {l : List Char} (h : hasNonWs l = true) :
    trimEnd l ≠ [] := by
  intro hnil
  have hs : trimStart l.reverse = [] := by
    unfold trimEnd at hnil
    unfold trimStart
    rwa [List.reverse_eq_nil_iff] at hnil
  exact trimStart_ne_nil (by rw [hasNonWs_reverse]; exact h) hs

theorem hasNonWs_trimStart {l : List Char} (h : hasNonWs l = true) :
    hasNonWs (trimStart l) = true := by
  obtain ⟨c, hc, hnw⟩ := hasNonWs_iff.mp h
  have hc' : c ∈ l.takeWhile isWsChar ++ l.dropWhile isWsChar := by
    rw [List.takeWhile_append_dropWhile]
    exact hc
  rcases List.mem_append.mp hc' with h1 | h2
  · exact absurd (List.mem_takeWhile_imp h1) hnw
  · exact hasNonWs_iff.mpr ⟨c, h2, hnw⟩

theorem trim_ne_nil {l : List Char} (h : hasNonWs l = true) : trim l ≠ [] :=
  trimEnd_ne_nil (hasNonWs_trimStart h)

theorem hasNonWs_of_trim_ne_nil {l : List Char} (h : trim l ≠ []) :
    hasNonWs l = true := by
  by_contra hn
  have hall : ∀ c ∈ l, isWsChar c := by
    intro c hc
    by_contra hw
    exact hn (hasNonWs_iff.mpr ⟨c, hc, hw⟩)
  have hs : trimStart l = [] := trimStart_eq_nil_iff.mpr hall
  exact h (by simp [trim, hs, trimEnd])

theorem trimStart_eq_self_of_trim {l : List Char} (h : trim l = l) :
    trimStart l = l := by
  have h1 : l.length ≤ (trimStart l).length := by
    calc l.length = (trim l).length := by rw [h]
    _ ≤ (trimStart l).length := trimEnd_length_le _
  exact (trimStart_suffix l).eq_of_length
    (le_antisymm (trimStart_length_le l) h1)

theorem trimEnd_eq_self_of_trim {l : List Char} (h : trim l = l) :
    trimEnd l = l := by
  have hs := trimStart_eq_self_of_trim h
  calc trimEnd l = trimEnd (trimStart l) := by rw [hs]
  _ = trim l := rfl
  _ = l := h

theorem trimEnd_idem (l : List Char) : trimEnd (trimEnd l) = trimEnd l := by
  simp [trimEnd, dropWhile_idem]

theorem trimStart_trim (l : List Char) : trimStart (trim l) = trim l := by
  rcases h : trim l with _ | ⟨c, t⟩
  · rfl
  · have hpre : trim l <+: trimStart l := prefix_trimEnd (trimStart l)
    rw [h] at hpre
    obtain ⟨t2, ht2⟩ := hpre
    have hc : isWsChar c = false := by
      have hne : l.dropWhile isWsChar ≠ [] := by
        show trimStart l ≠ []
        rw [← ht2]
        simp
      have hw := List.head_dropWhile_not isWsChar l hne
      have hh : (l.dropWhile isWsChar).head hne = c := by
        show (trimStart l).head _ = c
        have : trimStart l = c :: (t ++ t2) := by
          rw [← ht2]
          rfl
        simp [this]
      rwa [hh] at hw
    simp [trimStart, List.dropWhile_cons, hc]

theorem trim_idem (l : List Char) : trim (trim l) = trim l := by
  have h : trim (trim l) = trimEnd (trimStart (trim l)) := rfl
  rw [h, trimStart_trim]
  exact trimEnd_idem (trimStart l)

theorem trimStart_append {a b : List Char} (h : hasNonWs a = true) :
    trimStart (a ++ b) = trimStart a ++ b := by
  have he : (a.dropWhile isWsChar).isEmpty = false := by
    cases hd : a.dropWhile isWsChar with
    | nil => exact absurd hd (trimStart_ne_nil h)
    | cons _ _ => rfl
  simp [trimStart, List.dropWhile_append, he]

theorem trimEnd_append {a b : List Char} (h : hasNonWs b = true) :
    trimEnd (a ++ b) = a ++ trimEnd b := by
  have hb : (b.reverse.dropWhile isWsChar).isEmpty = false := by
    cases hd : b.reverse.dropWhile isWsChar with
    | nil => exact absurd hd (trimStart_ne_nil (by rw [hasNonWs_reverse]; exact h))
    | cons _ _ => rfl
  simp [trimEnd, List.reverse_append, List.dropWhile_append, hb]

theorem last_not_ws_of_trim {l : List Char} (h : trim l = l) (hl : l ≠ []) :
    isWsChar (l.getLast hl) = false := by
  rcases List.eq_nil_or_concat l with rfl | ⟨t, a, hta⟩
  · exact absurd rfl hl
  · subst hta
    by_contra hb
    rw [Bool.not_eq_false] at hb
    have ha : isWsChar a = true := by
      have hg : (t.concat a).getLast hl = a := by
        simp [List.concat_eq_append]
      rwa [hg] at hb
    have hE : trimEnd (t.concat a) = trimEnd t := by
      simp [trimEnd, List.concat_eq_append, List.reverse_append,
        List.dropWhile_cons, ha]
    have hlen : (trimEnd (t.concat a)).length < (t.concat a).length := by
      rw [hE]
      have := trimEnd_length_le t
      simp [List.concat_eq_append]
      omega
    rw [trimEnd_eq_self_of_trim h] at hlen
    omega

theorem hasNonWs_suffix_of_trim {m s : List Char} (h : trim m = m)
    (hm : m ≠ []) (hs : s <:+ m) (hsne : s ≠ []) : hasNonWs s = true := by
  obtain ⟨t, rfl⟩ := hs
  have hlast := last_not_ws_of_trim h hm
  have hg : (t ++ s).getLast hm = s.getLast hsne :=
    List.getLast_append_of_ne_nil hsne
  rw [hg] at hlast
  exact hasNonWs_iff.mpr ⟨s.getLast hsne, List.getLast_mem hsne, by simp [hlast]⟩

theorem trim_overlap_append {po m : List Char} (hpo : hasNonWs po = true)
    (hm : trim m = m) (hmne : m ≠ []) :
    trim (po ++ ' ' :: m) = trimStart po ++ ' ' :: m := by
  have hm' : hasNonWs m = true := hasNonWs_of_trim_ne_nil (by rw [hm]; exact hmne)
  have hsm : hasNonWs (' ' :: m) = true := by
    unfold hasNonWs at hm' ⊢
    rw [List.any_cons, hm']
    simp
  have h1 : trimStart (po ++ ' ' :: m) = trimStart po ++ ' ' :: m :=
    trimStart_append hpo
  have h2 : trimEnd (trimStart po ++ ' ' :: m) = trimStart po ++ ' ' :: m := by
    rw [trimEnd_append hsm]
    have h3 : trimEnd (' ' :: m) = ' ' :: trimEnd m := by
      have h4 : (' ' : Char) :: m = [' '] ++ m := rfl
      rw [h4, trimEnd_append hm']
      rfl
    rw [h3, trimEnd_eq_self_of_trim hm]
  calc trim (po ++ ' ' :: m) = trimEnd (trimStart (po ++ ' ' :: m)) := rfl
  _ = trimEnd (trimStart po ++ ' ' :: m) := by rw [h1]
  _ = trimStart po ++ ' ' :: m := h2

theorem hasNonWs_append_r {a b : List Char} (h : hasNonWs b = true) :
    hasNonWs (a ++ b) = true := by
  simp [hasNonWs] at h ⊢
  obtain ⟨c, hc, hw⟩ := h
  exact Or.inr ⟨c, hc, hw⟩

theorem hasNonWs_cons_r {x : Char} {m : List Char} (h : hasNonWs m = true) :
    hasNonWs (x :: m) = true := by
  unfold hasNonWs at h ⊢
  rw [List.any_cons, h]
  simp

theorem trimmed_cases {x : List Char} (h : trim x = x) :
    x = [] ∨ hasNonWs x = true := by
  rcases eq_or_ne x [] with rfl | hx
  · exact Or.inl rfl
  · exact Or.inr (hasNonWs_of_trim_ne_nil (by rw [h]; exact hx))

theorem hasNonWs_append_l {a b : List Char} (h : hasNonWs a = true) :
    hasNonWs (a ++ b) = true := by
  simp [hasNonWs] at h ⊢
  obtain ⟨c, hc, hw⟩ := h
  exact Or.inl ⟨c, hc, hw⟩

theorem hasNonWs_ne_nil {a : List Char} (h : hasNonWs a = true) : a ≠ [] := by
  rintro rfl
  simp [hasNonWs] at h

/-! ## Lemmas about the merge and overlap passes -/

theorem joinParts_invariant {cc chunk : List Char} (hchunk : trim chunk = chunk)
    (hcc : cc = [] ∨ hasNonWs cc = true) :
    joinParts cc chunk = [] ∨ hasNonWs (joinParts cc chunk) = true := by
  rcases hcc with rfl | hnw
  · simpa [joinParts] using trimmed_cases hchunk
  · have hne : cc.isEmpty = false := by
      cases cc
      · exact absurd rfl (hasNonWs_ne_nil hnw)
      · rfl
    rw [joinParts, hne]
    simp only [Bool.false_eq_true, if_false]
    exact Or.inr (hasNonWs_append_l hnw)

theorem mergeCore_mem_trim {maxChars : Nat} :
    ∀ (chunks : List (List Char)) (cc c : List Char),
      c ∈ mergeCore maxChars chunks cc → trim c = c := by
  intro chunks
  induction chunks with
  | nil =>
    intro cc c hc
    unfold mergeCore at hc
    split at hc
    · exact absurd hc (List.not_mem_nil c)
    · rw [List.mem_singleton.mp hc]
      exact trim_idem cc
  | cons chunk rest ih =>
    intro cc c hc
    unfold mergeCore at hc
    split at hc
    · exact ih _ c hc
    · rcases List.mem_append.mp hc with h1 | h2
      · split at h1
        · exact absurd h1 (List.not_mem_nil c)
        · rw [List.mem_singleton.mp h1]
          exact trim_idem cc
      · exact ih _ c h2

theorem mergeCore_mem_ne_nil {maxChars : Nat} :
    ∀ (chunks : List (List Char)) (cc : List Char),
      (∀ x ∈ chunks, trim x = x) → (cc = [] ∨ hasNonWs cc = true) →
      ∀ c ∈ mergeCore maxChars chunks cc, c ≠ [] := by
  intro chunks
  induction chunks with
  | nil =>
    intro cc _ _ c hc
    unfold mergeCore at hc
    split at hc
    · exact absurd hc (List.not_mem_nil c)
    · rw [List.mem_singleton.mp hc]
      rename_i hne
      intro h
      rw [h] at hne
      exact hne rfl
  | cons chunk rest ih =>
    intro cc hin hcc c hc
    have hchunk : trim chunk = chunk := hin chunk (List.mem_cons_self chunk rest)
    have hrest : ∀ x ∈ rest, trim x = x := fun x hx =>
      hin x (List.mem_cons_of_mem chunk hx)
    unfold mergeCore at hc
    split at hc
    · exact ih _ hrest (joinParts_invariant hchunk hcc) c hc
    · rcases List.mem_append.mp hc with h1 | h2
      · split at h1
        · exact absurd h1 (List.not_mem_nil c)
        · rw [List.mem_singleton.mp h1]
          rename_i hccE
          rcases hcc with rfl | hnw
          · exact absurd rfl hccE
          · exact trim_ne_nil hnw
      · exact ih _ hrest (trimmed_cases hchunk) c h2

theorem mergeCore_mem_length {maxChars : Nat} :
    ∀ (chunks : List (List Char)) (cc : List Char),
      (∀ x ∈ chunks, x.length ≤ maxChars) → cc.length ≤ maxChars →
      ∀ c ∈ mergeCore maxChars chunks cc, c.length ≤ maxChars := by
  intro chunks
  induction chunks with
  | nil =>
    intro cc _ hcc c hc
    unfold mergeCore at hc
    split at hc
    · exact absurd hc (List.not_mem_nil c)
    · rw [List.mem_singleton.mp hc]
      exact le_trans (trim_length_le cc) hcc
  | cons chunk rest ih =>
    intro cc hin hcc c hc
    have hchunk : chunk.length ≤ maxChars :=
      hin chunk (List.mem_cons_self chunk rest)
    have hrest : ∀ x ∈ rest, x.length ≤ maxChars := fun x hx =>
      hin x (List.mem_cons_of_mem chunk hx)
    unfold mergeCore at hc
    split at hc
    · rename_i hle
      exact ih _ hrest hle c hc
    · rcases List.mem_append.mp hc with h1 | h2
      · split at h1
        · exact absurd h1 (List.not_mem_nil c)
        · rw [List.mem_singleton.mp h1]
          exact le_trans (trim_length_le cc) hcc
      · exact ih _ hrest hchunk c h2

theorem ne_nil_of_not_isEmpty {α : Type} {l : List α} (h : ¬l.isEmpty = true) :
    l ≠ [] := by
  cases l
  · exact absurd rfl h
  · simp

theorem overlapPrefixed_hasNonWs {po c : List Char} (h : hasNonWs c = true) :
    hasNonWs (overlapPrefixed po c) = true := by
  unfold overlapPrefixed
  split
  · exact hasNonWs_append_r (hasNonWs_cons_r h)
  · exact h

theorem addOvGo_mem_trim {ov : Nat} :
    ∀ (cs : List (List Char)) (prev c : List Char),
      c ∈ addOvGo ov prev cs → trim c = c := by
  intro cs
  induction cs with
  | nil =>
    intro prev c hc
    simp [addOvGo] at hc
  | cons c0 cs ih =>
    intro prev c hc
    rcases List.mem_cons.mp hc with h1 | h2
    · rw [h1]
      exact trim_idem _
    · exact ih c0 c h2

theorem addOvGo_mem_ne_nil {ov : Nat} :
    ∀ (cs : List (List Char)) (prev : List Char),
      (∀ x ∈ cs, trim x = x ∧ x ≠ []) →
      ∀ c ∈ addOvGo ov prev cs, c ≠ [] := by
  intro cs
  induction cs with
  | nil =>
    intro prev _ c hc
    simp [addOvGo] at hc
  | cons c0 cs ih =>
    intro prev hin c hc
    obtain ⟨hc0t, hc0n⟩ := hin c0 (List.mem_cons_self c0 cs)
    rcases List.mem_cons.mp hc with h1 | h2
    · rw [h1]
      exact trim_ne_nil (overlapPrefixed_hasNonWs
        (hasNonWs_of_trim_ne_nil (by rw [hc0t]; exact hc0n)))
    · exact ih c0 (fun x hx => hin x (List.mem_cons_of_mem c0 hx)) c h2

theorem addOverlaps_mem_trim {ov : Nat} {chunks : List (List Char)}
    (hin : ∀ x ∈ chunks, trim x = x) :
    ∀ c ∈ addOverlapsBetweenChunks chunks ov, trim c = c := by
  intro c hc
  unfold addOverlapsBetweenChunks at hc
  split at hc
  · exact hin c hc
  · cases chunks with
    | nil => simp at hc
    | cons c0 cs =>
      rcases List.mem_cons.mp hc with h1 | h2
      · rw [h1]
        exact trim_idem c0
      · exact addOvGo_mem_trim cs c0 c h2

theorem addOverlaps_mem_good {ov : Nat} {chunks : List (List Char)}
    (hin : ∀ x ∈ chunks, trim x = x ∧ x ≠ []) :
    ∀ c ∈ addOverlapsBetweenChunks chunks ov, trim c = c ∧ c ≠ [] := by
  intro c hc
  unfold addOverlapsBetweenChunks at hc
  split at hc
  · exact hin c hc
  · cases chunks with
    | nil => simp at hc
    | cons c0 cs =>
      obtain ⟨hc0t, hc0n⟩ := hin c0 (List.mem_cons_self c0 cs)
      rcases List.mem_cons.mp hc with h1 | h2
      · rw [h1, hc0t]
        exact ⟨hc0t, hc0n⟩
      · exact ⟨addOvGo_mem_trim cs c0 c h2,
          addOvGo_mem_ne_nil cs c0
            (fun x hx => hin x (List.mem_cons_of_mem c0 hx)) c h2⟩

theorem addOverlaps_zero (chunks : List (List Char)) :
    addOverlapsBetweenChunks chunks 0 = chunks := by
  simp [addOverlapsBetweenChunks]

theorem mergeChunks_mem_trim {chunks : List (List Char)} {mc ov : Nat} :
    ∀ c ∈ mergeChunksWithOverlap chunks mc ov, trim c = c := by
  intro c hc
  unfold mergeChunksWithOverlap at hc
  split at hc
  · simp at hc
  · exact addOverlaps_mem_trim (fun x hx => mergeCore_mem_trim chunks [] x hx) c hc

theorem mergeChunks_mem_good {chunks : List (List Char)} {mc ov : Nat}
    (hin : ∀ x ∈ chunks, trim x = x) :
    ∀ c ∈ mergeChunksWithOverlap chunks mc ov, trim c = c ∧ c ≠ [] := by
  intro c hc
  unfold mergeChunksWithOverlap at hc
  split at hc
  · simp at hc
  · exact addOverlaps_mem_good
      (fun x hx => ⟨mergeCore_mem_trim chunks [] x hx,
        mergeCore_mem_ne_nil chunks [] hin (Or.inl rfl) x hx⟩) c hc

theorem mergeChunks_mem_length {chunks : List (List Char)} {mc : Nat}
    (hin : ∀ x ∈ chunks, x.length ≤ mc) :
    ∀ c ∈ mergeChunksWithOverlap chunks mc 0, c.length ≤ mc := by
  intro c hc
  unfold mergeChunksWithOverlap at hc
  split at hc
  · simp at hc
  · rw [addOverlaps_zero] at hc
    exact mergeCore_mem_length chunks [] hin (Nat.zero_le mc) c hc

/-! ## Lemmas about the forced character slicing -/

theorem forceSplitGo_mem {mc ov : Nat} {text : List Char} :
    ∀ (fuel pos : Nat) (out : List (List Char)),
      forceSplitGo mc ov text fuel pos = some out →
      ∀ c ∈ out, trim c = c ∧ c.length ≤ mc := by
  intro fuel
  induction fuel with
  | zero =>
    intro pos out h c hc
    unfold forceSplitGo at h
    split at h
    · exact absurd h (by simp)
    · rw [← Option.some_inj.mp h] at hc
      simp at hc
  | succ fuel ih =>
    intro pos out h c hc
    unfold forceSplitGo at h
    split at h
    · rename_i hpos
      split at h
      · rename_i hend
        rw [← Option.some_inj.mp h] at hc
        rw [List.mem_singleton.mp hc]
        refine ⟨trim_idem _, ?_⟩
        have hd : (text.drop pos).length = text.length - pos := by
          simp
        have := trim_length_le (text.drop pos)
        omega
      · rename_i hend
        rcases Option.map_eq_some'.mp h with ⟨rest2, hrest, hout⟩
        rw [← hout] at hc
        rcases List.mem_cons.mp hc with h1 | h2
        · rw [h1]
          refine ⟨trim_idem _, ?_⟩
          have hs : (substring text pos (pos + mc)).length = mc := by
            unfold substring
            simp
            omega
          have := trim_length_le (substring text pos (pos + mc))
          omega
        · exact ih _ rest2 hrest c h2
    · rw [← Option.some_inj.mp h] at hc
      simp at hc

theorem forceSplit_mem {mc ov : Nat} {text : List Char}
    {out : List (List Char)}
    (h : forceSplitByCharacterLimit text mc ov = some out) :
    ∀ c ∈ out, trim c = c ∧ c ≠ [] ∧ c.length ≤ mc := by
  intro c hc
  unfold forceSplitByCharacterLimit at h
  rcases Option.map_eq_some'.mp h with ⟨l, hl, hout⟩
  rw [← hout] at hc
  rcases List.mem_filter.mp hc with ⟨hmem, hne⟩
  obtain ⟨ht, hlen⟩ := forceSplitGo_mem _ _ l hl c hmem
  exact ⟨ht, ne_nil_of_not_isEmpty (by simpa using hne), hlen⟩

theorem forceSplitGo_isSome {mc ov : Nat} (text : List Char) (hov : ov < mc) :
    ∀ (fuel pos : Nat), text.length + 1 ≤ fuel + pos →
      (forceSplitGo mc ov text fuel pos).isSome = true := by
  intro fuel
  induction fuel with
  | zero =>
    intro pos hfp
    unfold forceSplitGo
    have : ¬pos < text.length := by omega
    simp [this]
  | succ fuel ih =>
    intro pos hfp
    unfold forceSplitGo
    split
    · split
      · simp
      · rename_i hpos hend
        have hnext : text.length + 1 ≤ fuel + forceSplitNextPos pos mc ov := by
          unfold forceSplitNextPos
          omega
        have hrec := ih (forceSplitNextPos pos mc ov) hnext
        simpa using hrec
    · simp

theorem forceSplit_isSome {mc ov : Nat} (text : List Char) (hov : ov < mc) :
    (forceSplitByCharacterLimit text mc ov).isSome = true := by
  unfold forceSplitByCharacterLimit
  have := forceSplitGo_isSome text hov (text.length + 1) 0 (by omega)
  simpa using this

/-! ## Option `mapM` helpers -/

theorem mapM_option_mem {α β : Type} {f : α → Option β} :
    ∀ (l : List α) (rs : List β), l.mapM f = some rs →
      ∀ r ∈ rs, ∃ a ∈ l, f a = some r := by
  intro l
  induction l with
  | nil =>
    intro rs h r hr
    simp only [List.mapM_nil] at h
    cases h
    simp at hr
  | cons a l ih =>
    intro rs h r hr
    rw [List.mapM_cons] at h
    cases hfa : f a with
    | none => rw [hfa] at h; simp at h
    | some b =>
      rw [hfa] at h
      cases hl : l.mapM f with
      | none => rw [hl] at h; simp at h
      | some bs =>
        rw [hl] at h
        simp at h
        subst h
        rcases List.mem_cons.mp hr with h1 | h2
        · exact ⟨a, List.mem_cons_self a l, by rw [hfa, h1]⟩
        · obtain ⟨a', ha', hfa'⟩ := ih bs hl r h2
          exact ⟨a', List.mem_cons_of_mem a ha', hfa'⟩

theorem mapM_option_isSome {α β : Type} {f : α → Option β} :
    ∀ (l : List α), (∀ a ∈ l, (f a).isSome = true) →
      (l.mapM f).isSome = true := by
  intro l
  induction l with
  | nil =>
    intro _
    rw [List.mapM_nil]
    simp
  | cons a l ih =>
    intro hin
    rw [List.mapM_cons]
    have ha := hin a (List.mem_cons_self a l)
    cases hfa : f a with
    | none => rw [hfa] at ha; simp at ha
    | some b =>
      have hl := ih (fun x hx => hin x (List.mem_cons_of_mem a hx))
      cases hm : l.mapM f with
      | none => rw [hm] at hl; simp at hl
      | some bs => simp [hfa, hm]

/-! ## Lemmas about `splitTextBySeparator` -/

theorem attachSeps_mem {sep : List Char} :
    ∀ (ss : List (List Char)) (c : List Char),
      c ∈ attachSeps sep ss → trim c = c ∧ c ≠ [] := by
  intro ss
  induction ss with
  | nil =>
    intro c hc
    simp [attachSeps] at hc
  | cons s rest ih =>
    intro c hc
    cases rest with
    | nil =>
      unfold attachSeps at hc
      split at hc
      · simp at hc
      · rename_i hne
        rw [List.mem_singleton.mp hc]
        exact ⟨trim_idem s, ne_nil_of_not_isEmpty hne⟩
    | cons s' rest' =>
      unfold attachSeps at hc
      rcases List.mem_append.mp hc with h1 | h2
      · split at h1
        · simp at h1
        · rename_i hne
          rw [List.mem_singleton.mp h1]
          exact ⟨trim_idem _, ne_nil_of_not_isEmpty hne⟩
      · exact ih c h2

theorem splitTextBySeparator_cases (sep text : List Char) (hsep : sep ≠ []) :
    splitTextBySeparator sep text = [text] ∨
      ∀ p ∈ splitTextBySeparator sep text, trim p = p ∧ p ≠ [] := by
  unfold splitTextBySeparator
  have hsepE : sep.isEmpty = false := by
    cases sep
    · exact absurd rfl hsep
    · rfl
  rw [hsepE]
  simp only [Bool.false_eq_true, if_false]
  split
  · exact Or.inl rfl
  · refine Or.inr ?_
    intro p hp
    rcases List.mem_filter.mp hp with ⟨hmem, _⟩
    exact attachSeps_mem _ p hmem

theorem splitTextBySeparator_nil_sep (text : List Char) :
    splitTextBySeparator [] text = text.map (fun c => [c]) := by
  simp [splitTextBySeparator]

/-! ## Lemmas about `recursiveSplit` and `chunkText` -/

theorem recursiveSplit_mem_trim {mc ov : Nat} {seps : List (List Char)}
    {text : List Char} {out : List (List Char)}
    (h : recursiveSplit mc ov seps text = some out) :
    ∀ c ∈ out, trim c = c := by
  intro c hc
  cases seps with
  | nil =>
    unfold recursiveSplit at h
    rcases Option.map_eq_some'.mp h with ⟨cs, _, hout⟩
    rw [← hout] at hc
    exact mergeChunks_mem_trim c hc
  | cons sep rest =>
    unfold recursiveSplit at h
    rcases Option.map_eq_some'.mp h with ⟨css, _, hout⟩
    rw [← hout] at hc
    exact mergeChunks_mem_trim c hc

theorem recursiveSplit_mem_length {mc : Nat} :
    ∀ (seps : List (List Char)) (text : List Char) (out : List (List Char)),
      recursiveSplit mc 0 seps text = some out →
      ∀ c ∈ out, c.length ≤ mc := by
  intro seps
  induction seps with
  | nil =>
    intro text out h c hc
    unfold recursiveSplit at h
    rcases Option.map_eq_some'.mp h with ⟨cs, hcs, hout⟩
    rw [← hout] at hc
    refine mergeChunks_mem_length ?_ c hc
    intro x hx
    split at hcs
    · rename_i hle
      cases hcs
      rw [List.mem_singleton.mp hx]
      exact hle
    · exact (forceSplit_mem hcs x hx).2.2
  | cons sep rest ih =>
    intro text out h c hc
    unfold recursiveSplit at h
    rcases Option.map_eq_some'.mp h with ⟨css, hcss, hout⟩
    rw [← hout] at hc
    refine mergeChunks_mem_length ?_ c hc
    intro x hx
    rcases List.mem_flatten.mp hx with ⟨l, hl, hxl⟩
    obtain ⟨p, _, hfp⟩ := mapM_option_mem _ css hcss l hl
    split at hfp
    · rename_i hle
      cases hfp
      rw [List.mem_singleton.mp hxl]
      exact hle
    · split at hfp
      · exact (forceSplit_mem hfp x hxl).2.2
      · exact ih p l hfp x hxl

theorem recursiveSplit_isSome_step (mc ov : Nat) (sep : List Char)
    (rest : List (List Char)) (hsep : sep ≠ []) (hrest : rest ≠ [])
    (ih : ∀ t, (recursiveSplit mc ov rest t).isSome = true) :
    ∀ t, (recursiveSplit mc ov (sep :: rest) t).isSome = true := by
  intro t
  unfold recursiveSplit
  rw [Option.isSome_map']
  apply mapM_option_isSome
  intro p _
  by_cases h1 : p.length ≤ mc
  · simp [h1]
  · have hsepE : sep.isEmpty = false := by
      cases sep
      · exact absurd rfl hsep
      · rfl
    have hrestE : rest.isEmpty = false := by
      cases rest
      · exact absurd rfl hrest
      · rfl
    simp only [h1, if_false, hsepE, hrestE, Bool.or_self, Bool.false_eq_true]
    exact ih p

theorem recursiveSplit_isSome_char (mc ov : Nat) (hmc : 1 ≤ mc) :
    ∀ t, (recursiveSplit mc ov ["".toList] t).isSome = true := by
  intro t
  unfold recursiveSplit
  rw [Option.isSome_map']
  apply mapM_option_isSome
  intro p hp
  have he : "".toList = ([] : List Char) := rfl
  rw [he, splitTextBySeparator_nil_sep] at hp
  obtain ⟨c, _, hc⟩ := List.mem_map.mp hp
  have hlen : p.length ≤ mc := by
    rw [← hc]
    simpa using hmc
  simp [hlen]

/-! ## Arithmetic relating the two token ratios -/

theorem estimateTokens_le_of_length {l : List Char} {mt : Nat}
    (h : l.length ≤ maxCharsPerChunk mt) : estimateTokens l ≤ mt := by
  unfold estimateTokens
  unfold maxCharsPerChunk at h
  omega

theorem maxChars_lt_length_of_estimate {l : List Char} {mt : Nat}
    (h : mt < estimateTokens l) : maxCharsPerChunk mt < l.length := by
  unfold estimateTokens at h
  unfold maxCharsPerChunk
  omega

theorem estimateTokens_trim_le (l : List Char) :
    estimateTokens (trim l) ≤ estimateTokens l := by
  unfold estimateTokens
  have := trim_length_le l
  omega

/-! ## Lemmas about `extractOverlap` and the overlap chain -/

theorem extractOverlap_suffix (t : List Char) (ov : Nat) :
    extractOverlap t ov <:+ t := by
  unfold extractOverlap
  split
  · exact List.suffix_refl t
  · split
    · exact List.drop_suffix _ _
    · exact List.drop_suffix _ _

theorem extractOverlap_ne_nil {t : List Char} {ov : Nat} (ht : trim t = t)
    (htne : t ≠ []) (hov : 0 < ov) : extractOverlap t ov ≠ [] := by
  unfold extractOverlap
  split
  · exact htne
  · rename_i hlt
    have hlt' : ov < t.length := by omega
    split
    · rename_i hnone
      intro hnil
      rw [List.drop_eq_nil_iff] at hnil
      omega
    · rename_i j hsome
      intro hnil
      rw [List.drop_eq_nil_iff] at hnil
      -- the found space would be the last character, but `t` is trimmed
      obtain ⟨hjlt, hj, _⟩ := List.findIdx?_eq_some_iff_getElem.mp hsome
      have hjlen : j < t.length - (t.length - ov) := by
        simpa using hjlt
      have hb1 : t.length - ov + j < t.length := by omega
      have hb2 : t.length - 1 < t.length := by omega
      have hget : (t.drop (t.length - ov))[j] = t[t.length - ov + j] := by
        rw [List.getElem_drop]
      have hlast : t.getLast htne = t[t.length - 1] := by
        rw [List.getLast_eq_getElem]
      have hwsp : isWsChar (t.getLast htne) = true := by
        rw [hlast]
        have hsp : t[t.length - ov + j] = ' ' := by
          have hx := hget ▸ hj
          simpa using hx
        have hfin : t[t.length - 1] = ' ' := by
          have heq : t[t.length - 1] = t[t.length - ov + j] := by
            congr 1
            omega
          rw [heq]
          exact hsp
        rw [hfin]
        rfl
      rw [last_not_ws_of_trim ht htne] at hwsp
      exact Bool.false_ne_true hwsp

theorem addOvGo_chain {ov : Nat} (hov : 0 < ov) :
    ∀ (cs : List (List Char)) (prev prevF : List Char),
      trim prev = prev → prev ≠ [] → prev <:+ prevF →
      (∀ x ∈ cs, trim x = x ∧ x ≠ []) →
      List.Chain' overlapRel (prevF :: addOvGo ov prev cs) := by
  intro cs
  induction cs with
  | nil =>
    intro prev prevF _ _ _ _
    exact List.chain'_singleton prevF
  | cons c0 cs ih =>
    intro prev prevF hpt hpn hps hin
    obtain ⟨hc0t, hc0n⟩ := hin c0 (List.mem_cons_self c0 cs)
    have hrest : ∀ x ∈ cs, trim x = x ∧ x ≠ [] := fun x hx =>
      hin x (List.mem_cons_of_mem c0 hx)
    have hpo_ne : extractOverlap prev ov ≠ [] := extractOverlap_ne_nil hpt hpn hov
    have hpo_suf : extractOverlap prev ov <:+ prev := extractOverlap_suffix prev ov
    have hpo_nw : hasNonWs (extractOverlap prev ov) = true :=
      hasNonWs_suffix_of_trim hpt hpn hpo_suf hpo_ne
    show List.Chain' overlapRel
      (prevF :: trim (overlapPrefixed (extractOverlap prev ov) c0) ::
        addOvGo ov c0 cs)
    unfold overlapPrefixed
    split
    · -- the overlap text is prepended
      have htr : trim (extractOverlap prev ov ++ ' ' :: c0) =
          trimStart (extractOverlap prev ov) ++ ' ' :: c0 :=
        trim_overlap_append hpo_nw hc0t hc0n
      rw [htr]
      refine List.chain'_cons.mpr ⟨?_, ?_⟩
      · -- the trimmed overlap text is a suffix of the previous final chunk
        refine ⟨(trimStart (extractOverlap prev ov)).length, ?_, ?_, ?_⟩
        · have := trimStart_ne_nil hpo_nw
          cases hd : trimStart (extractOverlap prev ov)
          · exact absurd hd this
          · simp [hd]
        · simp
        · rw [List.take_left]
          exact ((trimStart_suffix _).trans hpo_suf).trans hps
      · refine ih c0 _ hc0t hc0n ?_ hrest
        exact ⟨trimStart (extractOverlap prev ov) ++ [' '], by simp⟩
    · -- the chunk already starts with the overlap text
      rename_i hcond
      have hpre : extractOverlap prev ov <+: c0 := by
        rw [Bool.and_eq_true, Bool.not_eq_eq_eq_not, Bool.not_eq_eq_eq_not] at hcond
        rcases Decidable.not_and_iff_or_not.mp hcond with h1 | h1
        · exfalso
          apply hpo_ne
          cases hd : extractOverlap prev ov
          · rfl
          · rw [hd] at h1
            simp at h1
        · have : (extractOverlap prev ov).isPrefixOf c0 = true := by
            cases hb : (extractOverlap prev ov).isPrefixOf c0
            · rw [hb] at h1
              simp at h1
            · rfl
          exact List.isPrefixOf_iff_prefix.mp this
      rw [hc0t]
      refine List.chain'_cons.mpr ⟨?_, ?_⟩
      · refine ⟨(extractOverlap prev ov).length, ?_, hpre.length_le, ?_⟩
        · cases hd : extractOverlap prev ov
          · exact absurd hd hpo_ne
          · simp [hd]
        · rw [← List.prefix_iff_eq_take.mp hpre]
          exact hpo_suf.trans hps
      · exact ih c0 c0 hc0t hc0n (List.suffix_refl c0) hrest

theorem addOverlaps_chain {ov : Nat} (hov : 0 < ov)
    {chunks : List (List Char)}
    (hin : ∀ x ∈ chunks, trim x = x ∧ x ≠ []) :
    List.Chain' overlapRel (addOverlapsBetweenChunks chunks ov) := by
  unfold addOverlapsBetweenChunks
  split
  · rename_i hguard
    have hlen : chunks.length ≤ 1 := by
      simp at hguard
      rcases hguard with h | h
      · exact h
      · exact absurd h (by omega)
    cases chunks with
    | nil => exact List.chain'_nil
    | cons c0 cs =>
      cases cs with
      | nil => exact List.chain'_singleton c0
      | cons _ _ => simp at hlen
  · cases chunks with
    | nil => exact List.chain'_nil
    | cons c0 cs =>
      obtain ⟨hc0t, hc0n⟩ := hin c0 (List.mem_cons_self c0 cs)
      show List.Chain' overlapRel (trim c0 :: addOvGo ov c0 cs)
      rw [hc0t]
      exact addOvGo_chain hov cs c0 c0 hc0t hc0n (List.suffix_refl c0)
        (fun x hx => hin x (List.mem_cons_of_mem c0 hx))

/-! ## The top level of `chunkText` -/

theorem DEFAULT_SEPARATORS_eq :
    DEFAULT_SEPARATORS = "\n\n".toList ::
      ["\n".toList, ". ".toList, "! ".toList, "? ".toList,
       "; ".toList, ", ".toList, " ".toList, "".toList] := rfl

theorem recursiveSplit_cons_flat {mc ov : Nat} {sep : List Char}
    {rest : List (List Char)} {text : List Char} {out : List (List Char)}
    (hsep : sep ≠ []) (hrest : rest ≠ []) (hlen : mc < text.length)
    (h : recursiveSplit mc ov (sep :: rest) text = some out) :
    ∃ flat : List (List Char), out = mergeChunksWithOverlap flat mc ov ∧
      ∀ x ∈ flat, trim x = x := by
  unfold recursiveSplit at h
  rcases Option.map_eq_some'.mp h with ⟨css, hcss, hout⟩
  refine ⟨css.flatten, hout.symm, ?_⟩
  intro x hx
  rcases List.mem_flatten.mp hx with ⟨l, hl, hxl⟩
  obtain ⟨p, hp, hfp⟩ := mapM_option_mem _ css hcss l hl
  split at hfp
  · rename_i hple
    cases hfp
    rw [List.mem_singleton.mp hxl]
    rcases splitTextBySeparator_cases sep text hsep with hone | hall
    · rw [hone] at hp
      rw [List.mem_singleton.mp hp] at hple
      omega
    · exact (hall p hp).1
  · split at hfp
    · rename_i hcond
      exfalso
      have hsepE : sep.isEmpty = false := by
        cases sep
        · exact absurd rfl hsep
        · rfl
      have hrestE : rest.isEmpty = false := by
        cases rest
        · exact absurd rfl hrest
        · rfl
      rw [hsepE, hrestE] at hcond
      simp at hcond
    · exact recursiveSplit_mem_trim hfp x hxl

theorem recursiveSplit_top_good {mc ov : Nat} {sep : List Char}
    {rest : List (List Char)} {text : List Char} {out : List (List Char)}
    (hsep : sep ≠ []) (hrest : rest ≠ []) (hlen : mc < text.length)
    (h : recursiveSplit mc ov (sep :: rest) text = some out) :
    ∀ c ∈ out, trim c = c ∧ c ≠ [] := by
  obtain ⟨flat, rfl, hflat⟩ := recursiveSplit_cons_flat hsep hrest hlen h
  exact mergeChunks_mem_good hflat

theorem recursiveSplit_top_chain {mc ov : Nat} {sep : List Char}
    {rest : List (List Char)} {text : List Char} {out : List (List Char)}
    (hsep : sep ≠ []) (hrest : rest ≠ []) (hlen : mc < text.length)
    (hov : 0 < ov) (h : recursiveSplit mc ov (sep :: rest) text = some out) :
    List.Chain' overlapRel out := by
  obtain ⟨flat, rfl, hflat⟩ := recursiveSplit_cons_flat hsep hrest hlen h
  unfold mergeChunksWithOverlap
  split
  · exact List.chain'_nil
  · exact addOverlaps_chain hov (fun x hx =>
      ⟨mergeCore_mem_trim flat [] x hx,
       mergeCore_mem_ne_nil flat [] hflat (Or.inl rfl) x hx⟩)

theorem chunkText_isSome (text : List Char) (mt ov : Nat) (hmt : 1 ≤ mt) :
    (chunkText text mt ov).isSome = true := by
  unfold chunkText
  split
  · simp
  · split
    · simp
    · have hmc : 1 ≤ maxCharsPerChunk mt := by
        unfold maxCharsPerChunk
        omega
    -- walk the default separator list down to the character-level fallback
      have h9 := recursiveSplit_isSome_char (maxCharsPerChunk mt) ov hmc
      have h8 := recursiveSplit_isSome_step (maxCharsPerChunk mt) ov
        " ".toList ["".toList] (by decide) (by decide) h9
      have h7 := recursiveSplit_isSome_step (maxCharsPerChunk mt) ov
        ", ".toList [" ".toList, "".toList] (by decide) (by decide) h8
      have h6 := recursiveSplit_isSome_step (maxCharsPerChunk mt) ov
        "; ".toList [", ".toList, " ".toList, "".toList]
        (by decide) (by decide) h7
      have h5 := recursiveSplit_isSome_step (maxCharsPerChunk mt) ov
        "? ".toList ["; ".toList, ", ".toList, " ".toList, "".toList]
        (by decide) (by decide) h6
      have h4 := recursiveSplit_isSome_step (maxCharsPerChunk mt) ov
        "! ".toList ["? ".toList, "; ".toList, ", ".toList, " ".toList,
          "".toList] (by decide) (by decide) h5
      have h3 := recursiveSplit_isSome_step (maxCharsPerChunk mt) ov
        ". ".toList ["! ".toList, "? ".toList, "; ".toList, ", ".toList,
          " ".toList, "".toList] (by decide) (by decide) h4
      have h2 := recursiveSplit_isSome_step (maxCharsPerChunk mt) ov
        "\n".toList [". ".toList, "! ".toList, "? ".toList, "; ".toList,
          ", ".toList, " ".toList, "".toList] (by decide) (by decide) h3
      have h1 := recursiveSplit_isSome_step (maxCharsPerChunk mt) ov
        "\n\n".toList ["\n".toList, ". ".toList, "! ".toList, "? ".toList,
          "; ".toList, ", ".toList, " ".toList, "".toList]
        (by decide) (by decide) h2
      exact h1 text

/-! ## Claim theorems for the chunker -/

/-- C1 (counterexample): as stated, the claim is false.  On the text
`'a'*30 ++ " " ++ 'b'*30` with `maxTokens = 10` and `overlapChars = 50`, the
overlap injection of `addOverlapsBetweenChunks` prepends the whole previous
chunk, producing a second chunk of 61 characters and 17 estimated tokens,
which exceeds the budget of 10; that chunk contains the `' '` separator, so
it is not a single atomic unit below every separator boundary. -/
theorem chunkText_token_budget_counterexample :
    chunkText (List.replicate 30 'a' ++ ' ' :: List.replicate 30 'b') 10 50 =
      some [List.replicate 30 'a',
        List.replicate 30 'a' ++ ' ' :: List.replicate 30 'b'] ∧
    10 < estimateTokens
      (List.replicate 30 'a' ++ ' ' :: List.replicate 30 'b') ∧
    ' ' ∈ List.replicate 30 'a' ++ ' ' :: List.replicate 30 'b' := by
  refine ⟨by decide, by decide, by decide⟩

/-- C1 (amended): the token budget does hold for the chunk contents the
splitter produces before overlap injection; in particular, with
`overlapChars = 0` every chunk returned by `chunkText` satisfies
`estimateTokens(chunk) ≤ maxTokens` (no atomic-unit exception is even needed,
because the character-level fallback bounds every piece). -/
theorem chunkText_token_budget_overlap_zero (text : List Char) (mt : Nat)
    (out : List (List Char)) (_hmt : 1 ≤ mt)
    (h : chunkText text mt 0 = some out) :
    ∀ c ∈ out, estimateTokens c ≤ mt := by
  intro c hc
  unfold chunkText at h
  split at h
  · cases h
    simp at hc
  · split at h
    · rename_i hest
      cases h
      rw [List.mem_singleton.mp hc]
      exact le_trans (estimateTokens_trim_le text) hest
    · exact estimateTokens_le_of_length
        (recursiveSplit_mem_length DEFAULT_SEPARATORS text out h c hc)

/-- Witness for the amended C1 at a concrete input. -/
theorem chunkText_token_budget_overlap_zero_witness :
    estimateTokens (List.replicate 30 'a') ≤ 10 :=
  chunkText_token_budget_overlap_zero
    (List.replicate 30 'a' ++ ' ' :: List.replicate 30 'b') 10
    [List.replicate 30 'a', List.replicate 30 'b'] (by decide) (by decide)
    (List.replicate 30 'a') (by decide)

/-- C4 (counterexample): as stated, the claim is false.  The forced
character slicing does not make strictly positive forward progress for every
`overlapChars ≥ 0`: with `maxChars = 3` (from `maxTokens = 1`) and
`overlapChars = 5`, the loop position stays at `0`
(`position = endPosition - overlap`, clamped at `0`), and the JS loop runs
forever on a 10-character input (modelled as fuel exhaustion, `none`). -/
theorem forceSplit_progress_counterexample :
    forceSplitByCharacterLimit (List.replicate 10 'a') 3 5 = none ∧
    ¬0 < forceSplitNextPos 0 3 5 := by
  refine ⟨by decide, by decide⟩

/-- C4 (amended): `chunkText` itself terminates for every text, every
`maxTokens ≥ 1` and every `overlapChars` — the character-level fallback keeps
every piece within `maxChars`, so `forceSplitByCharacterLimit` is never
invoked by `chunkText` — and the forced slicing makes strictly positive
forward progress (and therefore terminates) whenever
`overlapChars < maxChars`. -/
theorem chunkText_terminates :
    (∀ (text : List Char) (mt ov : Nat), 1 ≤ mt →
      (chunkText text mt ov).isSome = true) ∧
    (∀ (pos mc ov : Nat), ov < mc → pos < forceSplitNextPos pos mc ov) ∧
    (∀ (text : List Char) (mc ov : Nat), ov < mc →
      (forceSplitByCharacterLimit text mc ov).isSome = true) := by
  refine ⟨chunkText_isSome, ?_, ?_⟩
  · intro pos mc ov hov
    unfold forceSplitNextPos
    omega
  · intro text mc ov hov
    exact forceSplit_isSome text hov

/-- Witness for the amended C4 at concrete inputs. -/
theorem chunkText_terminates_witness :
    (chunkText ("a b c d e f g h".toList) 1 5).isSome = true ∧
    0 < forceSplitNextPos 0 3 1 ∧
    (forceSplitByCharacterLimit (List.replicate 10 'a') 3 1).isSome = true :=
  ⟨chunkText_terminates.1 ("a b c d e f g h".toList) 1 5 (by decide),
   chunkText_terminates.2.1 0 3 1 (by decide),
   chunkText_terminates.2.2 (List.replicate 10 'a') 3 1 (by decide)⟩

/-- C7: for `overlapChars > 0`, every chunk after the first begins with a
non-empty prefix drawn from the tail (a suffix) of the previous chunk
(`overlapRel`); the "unless it already started with that text" branch is
subsumed because in that branch the overlap text itself is the common
prefix/suffix. -/
theorem chunkText_overlap_chain (text : List Char) (mt ov : Nat)
    (out : List (List Char)) (hov : 0 < ov)
    (h : chunkText text mt ov = some out) :
    List.Chain' overlapRel out := by
  unfold chunkText at h
  split at h
  · cases h
    exact List.chain'_nil
  · split at h
    · cases h
      exact List.chain'_singleton _
    · rename_i hg1 hg2
      have hest : mt < estimateTokens text := by omega
      have hlen := maxChars_lt_length_of_estimate hest
      rw [DEFAULT_SEPARATORS_eq] at h
      exact recursiveSplit_top_chain (by decide) (by decide) hlen hov h

/-- Witness for C7 at a concrete input with two chunks. -/
theorem chunkText_overlap_chain_witness :
    List.Chain' overlapRel [List.replicate 30 'a',
      List.replicate 30 'a' ++ ' ' :: List.replicate 30 'b'] :=
  chunkText_overlap_chain
    (List.replicate 30 'a' ++ ' ' :: List.replicate 30 'b') 10 50
    [List.replicate 30 'a',
      List.replicate 30 'a' ++ ' ' :: List.replicate 30 'b']
    (by decide) (by decide)

/-- C10: every string in an array returned by `chunkText` is non-empty and
equals its own trim (the merge and overlap passes only push `.trim()`-ed
non-blank strings, and whitespace-only fragments produced at the
character-level are absorbed by the outer merge passes). -/
theorem chunkText_chunks_nonempty_trimmed (text : List Char) (mt ov : Nat)
    (out : List (List Char)) (h : chunkText text mt ov = some out) :
    ∀ c ∈ out, c ≠ [] ∧ trim c = c := by
  intro c hc
  unfold chunkText at h
  split at h
  · cases h
    simp at hc
  · split at h
    · rename_i hne _
      cases h
      rw [List.mem_singleton.mp hc]
      exact ⟨ne_nil_of_not_isEmpty hne, trim_idem text⟩
    · rename_i hg1 hg2
      have hest : mt < estimateTokens text := by omega
      have hlen := maxChars_lt_length_of_estimate hest
      rw [DEFAULT_SEPARATORS_eq] at h
      obtain ⟨ht, hn⟩ :=
        recursiveSplit_top_good (by decide) (by decide) hlen h c hc
      exact ⟨hn, ht⟩

/-- Witness for C10 at a concrete input. -/
theorem chunkText_chunks_nonempty_trimmed_witness :
    "hi".toList ≠ [] ∧ trim "hi".toList = "hi".toList :=
  chunkText_chunks_nonempty_trimmed ("  hi  ".toList) 450 50 ["hi".toList]
    (by decide) "hi".toList (by decide)

/-! ## Lemmas about `callWithRetry` -/

theorem callWithRetryGo_mock {A : Type} (mr : Nat) (base : ℚ) (jit : Nat → ℚ)
    (v : A) (e : JsError) (K : Nat) (hre : isRetryableStatus e.status = true)
    (hK : K ≤ mr) :
    ∀ (fuel attempt : Nat), attempt ≤ K → K - attempt ≤ fuel →
      callWithRetryGo mr base jit
          (fun a => if a < K then .error e else .ok v) fuel attempt =
        (.ok v, (List.range' attempt (K - attempt)).map
          (fun a => min 60000 (base * 2 ^ a) + jit a)) := by
  intro fuel
  induction fuel with
  | zero =>
    intro attempt ha hf
    have hak : attempt = K := by omega
    subst hak
    unfold callWithRetryGo
    simp
  | succ fuel ih =>
    intro attempt ha hf
    by_cases hlt : attempt < K
    · have hcond : (isRetryableStatus e.status && decide (attempt < mr)) = true := by
        rw [hre]
        simp
        omega
      have hrec := ih (attempt + 1) (by omega) (by omega)
      have hn : K - attempt = (K - (attempt + 1)) + 1 := by omega
      simp only [callWithRetryGo, if_pos hlt, hcond, if_true, hrec, hn,
        List.range'_succ, List.map_cons]
    · have hak : attempt = K := by omega
      subst hak
      unfold callWithRetryGo
      simp

theorem callWithRetryGo_exhaust (A : Type) (mr : Nat) (base : ℚ)
    (jit : Nat → ℚ) (e : JsError) (hre : isRetryableStatus e.status = true) :
    ∀ (fuel attempt : Nat), mr - attempt ≤ fuel →
      callWithRetryGo mr base jit
          (fun _ => (.error e : Except JsError A)) fuel attempt =
        (.error e, (List.range' attempt (mr - attempt)).map
          (fun a => min 60000 (base * 2 ^ a) + jit a)) := by
  intro fuel
  induction fuel with
  | zero =>
    intro attempt hf
    have hak : mr ≤ attempt := by omega
    unfold callWithRetryGo
    simp [Nat.sub_eq_zero_of_le hak]
  | succ fuel ih =>
    intro attempt hf
    by_cases hlt : attempt < mr
    · have hcond : (isRetryableStatus e.status && decide (attempt < mr)) = true := by
        rw [hre]
        simp
        omega
      have hrec := ih (attempt + 1) (by omega)
      have hn : mr - attempt = (mr - (attempt + 1)) + 1 := by omega
      simp only [callWithRetryGo, hcond, if_true, hrec, hn,
        List.range'_succ, List.map_cons]
    · have hcond : (isRetryableStatus e.status && decide (attempt < mr)) = false := by
        simp
        omega
      unfold callWithRetryGo
      simp [hcond, Nat.sub_eq_zero_of_le (by omega : mr ≤ attempt)]

/-! ## Claim theorem for the retry policy -/

/-- C5: `callWithRetry` (i) propagates a non-retryable error immediately with
no backoff sleeps, (ii) on an executor that throws a throttling/transient
error exactly `K ≤ maxRetries` times and then succeeds, performs exactly `K`
retries with the recorded waits `min(60000, base·2^attempt) + jitter(attempt)`
and returns the correct final result, and (iii) on persistent throttling
performs exactly `maxRetries` retries and then throws. -/
theorem callWithRetry_spec :
    (∀ (A : Type) (mr : Nat) (base : ℚ) (jit : Nat → ℚ)
        (exec : Nat → Except JsError A) (e : JsError),
        exec 0 = .error e → isRetryableStatus e.status = false →
        callWithRetry mr base jit exec = (.error e, [])) ∧
    (∀ (A : Type) (mr K : Nat) (base : ℚ) (jit : Nat → ℚ) (v : A)
        (e : JsError), isRetryableStatus e.status = true → K ≤ mr →
        callWithRetry mr base jit
            (fun a => if a < K then .error e else .ok v) =
          (.ok v, (List.range K).map
            (fun a => min 60000 (base * 2 ^ a) + jit a))) ∧
    (∀ (A : Type) (mr : Nat) (base : ℚ) (jit : Nat → ℚ) (e : JsError),
        isRetryableStatus e.status = true →
        callWithRetry mr base jit (fun _ => (.error e : Except JsError A)) =
          (.error e, (List.range mr).map
            (fun a => min 60000 (base * 2 ^ a) + jit a))) := by
  refine ⟨?_, ?_, ?_⟩
  · intro A mr base jit exec e hexec hnre
    unfold callWithRetry callWithRetryGo
    rw [hexec]
    simp [hnre]
  · intro A mr K base jit v e hre hK
    have h := callWithRetryGo_mock mr base jit v e K hre hK (mr + 1) 0
      (by omega) (by omega)
    rw [callWithRetry, h]
    rw [Nat.sub_zero, List.range_eq_range']
  · intro A mr base jit e hre
    have h := callWithRetryGo_exhaust A mr base jit e hre (mr + 1) 0 (by omega)
    rw [callWithRetry, h]
    rw [Nat.sub_zero, List.range_eq_range']

/-- Witness for C5 at a concrete mock executor: two throttles, then success,
with `maxRetries = 6` and `baseBackoffMs = 500`. -/
theorem callWithRetry_spec_witness :
    callWithRetry 6 500 (fun _ => (0 : ℚ))
        (fun a => if a < 2 then .error ⟨some 429⟩ else .ok (42 : Nat)) =
      (.ok 42, (List.range 2).map
        (fun a => min 60000 ((500 : ℚ) * 2 ^ a) + (fun _ => (0 : ℚ)) a)) :=
  callWithRetry_spec.2.1 Nat 6 2 500 (fun _ => 0) 42 ⟨some 429⟩
    (by decide) (by decide)

/-! ## Lemmas about the batch executor -/

theorem chunkByTokenGo_flatten {T : Type} (count : T → Nat) (maxT : Nat) :
    ∀ (its batch : List T) (tokens : Nat),
      (chunkByTokenGo count maxT its batch tokens).flatten = batch ++ its := by
  intro its
  induction its with
  | nil =>
    intro batch tokens
    unfold chunkByTokenGo
    cases batch with
    | nil => simp
    | cons b bs => simp
  | cons it its ih =>
    intro batch tokens
    unfold chunkByTokenGo
    split
    · simp [ih]
    · rw [ih]
      simp

theorem fallbackGo_flatten {T : Type} (per : Nat) :
    ∀ (fuel : Nat) (l : List T), (fallbackGo per fuel l).flatten = l := by
  intro fuel
  induction fuel with
  | zero =>
    intro l
    cases l with
    | nil => rfl
    | cons x xs => simp [fallbackGo]
  | succ fuel ih =>
    intro l
    cases l with
    | nil => rfl
    | cons x xs =>
      show (List.take per (x :: xs) ::
        fallbackGo per fuel (List.drop per (x :: xs))).flatten = x :: xs
      rw [List.flatten_cons, ih]
      exact List.take_append_drop per (x :: xs)

theorem writeAt_skip {R : Type} :
    ∀ (front : List (Option R)) (rs : List R) (tail : List (Option R)),
      writeAt front.length rs (front ++ tail) = front ++ writeFill rs tail := by
  intro front
  induction front with
  | nil =>
    intro rs tail
    rfl
  | cons x front ih =>
    intro rs tail
    show x :: writeAt front.length rs (front ++ tail) =
      x :: (front ++ writeFill rs tail)
    rw [ih]

theorem writeFill_fill {R : Type} :
    ∀ (rs : List R) (m : Nat),
      writeFill rs (List.replicate (rs.length + m) none) =
        rs.map some ++ List.replicate m none := by
  intro rs
  induction rs with
  | nil =>
    intro m
    simp [writeFill]
  | cons r rs ih =>
    intro m
    have h1 : (r :: rs).length + m = (rs.length + m) + 1 := by
      simp
      omega
    rw [h1, List.replicate_succ]
    show some r :: writeFill rs (List.replicate (rs.length + m) none) =
      List.map some (r :: rs) ++ List.replicate m none
    rw [ih]
    rfl

theorem execBatchesGo_good {T R : Type}
    (cwr : List T → Except JsError (List R)) (f : T → R)
    (hcwr : ∀ b, cwr b = .ok (b.map f)) :
    ∀ (bs : List (List T)) (front : List (Option R)),
      execBatchesGo cwr (batchStarts front.length bs)
          (front ++ List.replicate bs.flatten.length none) =
        .ok (front ++ bs.flatten.map (fun t => some (f t))) := by
  intro bs
  induction bs with
  | nil =>
    intro front
    simp [batchStarts, execBatchesGo]
  | cons b bs ih =>
    intro front
    have hrun : runBatchAdaptive cwr 6 b = .ok (some (b.map f)) := by
      unfold runBatchAdaptive
      rw [hcwr]
    have hstep : execBatchesGo cwr
        (batchStarts front.length (b :: bs))
        (front ++ List.replicate (b :: bs).flatten.length none) =
        execBatchesGo cwr (batchStarts (front.length + b.length) bs)
          (writeAt front.length (b.map f)
            (front ++ List.replicate (b :: bs).flatten.length none)) := by
      show (match runBatchAdaptive cwr 6 b with
        | Except.error e => Except.error e
        | Except.ok none =>
            execBatchesGo cwr (batchStarts (front.length + b.length) bs)
              (front ++ List.replicate (b :: bs).flatten.length none)
        | Except.ok (some rs) =>
            execBatchesGo cwr (batchStarts (front.length + b.length) bs)
              (writeAt front.length rs
                (front ++ List.replicate (b :: bs).flatten.length none))) =
        execBatchesGo cwr (batchStarts (front.length + b.length) bs)
          (writeAt front.length (b.map f)
            (front ++ List.replicate (b :: bs).flatten.length none))
      rw [hrun]
    rw [hstep]
    have hflat : (b :: bs).flatten.length = (b.map f).length + bs.flatten.length := by
      simp
    rw [hflat, writeAt_skip, writeFill_fill]
    have hfront : front ++ ((b.map f).map some ++
        List.replicate bs.flatten.length none) =
        (front ++ b.map (fun t => some (f t))) ++
          List.replicate bs.flatten.length none := by
      simp [List.map_map]
    rw [hfront]
    have hlen : front.length + b.length =
        (front ++ b.map (fun t => some (f t))).length := by
      simp
    rw [hlen, ih]
    simp [List.map_map]

/-! ## Claim theorems for the batch executor -/

/-- C3: when the executor succeeds on every call, producing one output per
batch item, `executeWithRateLimit` returns an array of the same length as
`items` with `results[i]` the processed output of `items[i]`, for both the
token-based partition and the fallback 128-item partition (both partitions
concatenate back to `items` in order, and each batch writes exactly its own
slice). -/
theorem executeWithRateLimit_success (T R : Type) (cfg : RateLimitCfg)
    (jit : Nat → ℚ) (hasTok : Bool) (tokCount : T → Nat) (f : T → R)
    (items : List T) :
    executeWithRateLimit cfg jit hasTok tokCount
        (fun b => .ok (b.map f)) items =
      .ok (items.map (fun t => some (f t))) := by
  unfold executeWithRateLimit
  have hcwr : ∀ b : List T,
      (callWithRetry cfg.maxRetries cfg.baseBackoffMs jit
        (fun _ => .ok (b.map f))).1 = .ok (b.map f) := by
    intro b
    unfold callWithRetry callWithRetryGo
    rfl
  have hflat : (if hasTok then
      chunkByToken tokCount (maxTokensPerCall cfg) items
      else fallbackChunking 128 items).flatten = items := by
    cases hasTok
    · exact fallbackGo_flatten 128 items.length items
    · exact chunkByTokenGo_flatten tokCount (maxTokensPerCall cfg) items [] 0
  have h := execBatchesGo_good _ f hcwr
    (if hasTok then chunkByToken tokCount (maxTokensPerCall cfg) items
      else fallbackChunking 128 items) []
  rw [hflat] at h
  simpa using h

/-- C2 (code bug): the adaptive-shrink loop silently drops the second half of
a shrunk batch.  With `items = [0, 1]` in one fallback batch and an executor
that throttles (HTTP 429) on 2-item batches but succeeds on 1-item batches,
the call returns successfully with `results = [some 100, none]`: slot 1 is
never written and item 1 is never processed, although the call did not
fail. -/
theorem executeWithRateLimit_shrink_drops_slots :
    executeWithRateLimit DEFAULT_CONFIG (fun _ => 0) false (fun _ => 0)
        (fun b => if 2 ≤ b.length then .error ⟨some 429⟩
          else .ok (b.map (fun n => n + 100))) [0, 1] =
      .ok [some 100, none] := by
  rfl

/-! ## Lemmas about the similarity search -/

theorem scanChunks_mem_threshold {simVal : List ℚ → List ℚ → ℚ} {qe : List ℚ}
    {thr : ℚ} {kid : String} {now : Nat} :
    ∀ (chunks : List VChunk) (cands : List Candidate) (n : Nat),
      scanChunks simVal qe thr kid now chunks = .ok (cands, n) →
      ∀ c ∈ cands, thr ≤ c.score := by
  intro chunks
  induction chunks with
  | nil =>
    intro cands n h c hc
    unfold scanChunks at h
    cases h
    simp at hc
  | cons ch rest ih =>
    intro cands n h c hc
    unfold scanChunks at h
    split at h
    · cases hrec : scanChunks simVal qe thr kid now rest with
      | error e => rw [hrec] at h; simp [Except.map] at h
      | ok p =>
        obtain ⟨cands', n'⟩ := p
        rw [hrec] at h
        simp [Except.map] at h
        obtain ⟨h1, _⟩ := h
        refine ih cands' n' hrec c ?_
        rw [h1]
        exact hc
    · split at h
      · exact absurd h (by simp)
      · rename_i emb hemb s hcos
        cases hrec : scanChunks simVal qe thr kid now rest with
        | error e => rw [hrec] at h; simp [Except.map] at h
        | ok p =>
          obtain ⟨cands', n'⟩ := p
          rw [hrec] at h
          simp [Except.map] at h
          obtain ⟨h1, _⟩ := h
          rw [← h1] at hc
          rcases List.mem_append.mp hc with h2 | h3
          · split at h2
            · rename_i hthr
              rw [List.mem_singleton.mp h2]
              exact hthr
            · simp at h2
          · exact ih cands' n' hrec c h3

theorem scanKVs_mem_threshold {simVal : List ℚ → List ℚ → ℚ} {qe : List ℚ}
    {thr : ℚ} {now : Nat} :
    ∀ (kvs : List KnowledgeVector) (cands : List Candidate) (n : Nat),
      scanKVs simVal qe thr now kvs = .ok (cands, n) →
      ∀ c ∈ cands, thr ≤ c.score := by
  intro kvs
  induction kvs with
  | nil =>
    intro cands n h c hc
    unfold scanKVs at h
    cases h
    simp at hc
  | cons kv rest ih =>
    intro cands n h c hc
    unfold scanKVs at h
    cases hscan : scanChunks simVal qe thr kv.knowledgeId now kv.chunks with
    | error e =>
      rw [hscan] at h
      simp at h
    | ok p =>
      obtain ⟨cs, cn⟩ := p
      rw [hscan] at h
      cases hrec : scanKVs simVal qe thr now rest with
      | error e =>
        rw [hrec] at h
        simp [Except.map] at h
      | ok p' =>
        obtain ⟨cands', n'⟩ := p'
        rw [hrec] at h
        simp [Except.map] at h
        obtain ⟨h1, _⟩ := h
        rw [← h1] at hc
        rcases List.mem_append.mp hc with h2 | h3
        · exact scanChunks_mem_threshold kv.chunks cs cn hscan c h2
        · exact ih cands' n' hrec c h3

theorem mem_insertDesc {c a : Candidate} :
    ∀ {l : List Candidate}, a ∈ insertDesc c l ↔ a = c ∨ a ∈ l := by
  intro l
  induction l with
  | nil => simp [insertDesc]
  | cons x xs ih =>
    unfold insertDesc
    split
    · simp
    · simp only [List.mem_cons, ih]
      tauto

theorem mem_sortByScoreDesc {a : Candidate} :
    ∀ {l : List Candidate}, a ∈ sortByScoreDesc l ↔ a ∈ l := by
  intro l
  induction l with
  | nil => simp [sortByScoreDesc]
  | cons x xs ih =>
    unfold sortByScoreDesc
    rw [mem_insertDesc]
    simp [ih]

theorem length_insertDesc (c : Candidate) :
    ∀ (l : List Candidate), (insertDesc c l).length = l.length + 1 := by
  intro l
  induction l with
  | nil => rfl
  | cons x xs ih =>
    unfold insertDesc
    split
    · rfl
    · simp [ih]

theorem length_sortByScoreDesc :
    ∀ (l : List Candidate), (sortByScoreDesc l).length = l.length := by
  intro l
  induction l with
  | nil => rfl
  | cons x xs ih =>
    unfold sortByScoreDesc
    rw [length_insertDesc, ih]
    rfl

theorem pairwise_insertDesc (c : Candidate) :
    ∀ (l : List Candidate),
      List.Pairwise (fun a b => b.score ≤ a.score) l →
      List.Pairwise (fun a b => b.score ≤ a.score) (insertDesc c l) := by
  intro l
  induction l with
  | nil =>
    intro _
    simp [insertDesc]
  | cons x xs ih =>
    intro h
    obtain ⟨hx, hxs⟩ := List.pairwise_cons.mp h
    unfold insertDesc
    split
    · rename_i hsc
      refine List.pairwise_cons.mpr ⟨?_, h⟩
      intro y hy
      rcases List.mem_cons.mp hy with rfl | hy'
      · exact hsc
      · exact le_trans (hx y hy') hsc
    · rename_i hsc
      refine List.pairwise_cons.mpr ⟨?_, ih hxs⟩
      intro y hy
      rcases mem_insertDesc.mp hy with rfl | hy'
      · linarith [lt_of_not_le hsc]
      · exact hx y hy'

theorem pairwise_sortByScoreDesc :
    ∀ (l : List Candidate),
      List.Pairwise (fun a b => b.score ≤ a.score) (sortByScoreDesc l) := by
  intro l
  induction l with
  | nil => simp [sortByScoreDesc]
  | cons x xs ih => exact pairwise_insertDesc x (sortByScoreDesc xs) ih

/-! ## Claim theorems for the similarity search -/

/-- C6: an `ok` response of `searchSimilar` only contains candidates with
`score ≥ threshold` (inclusive), sorted descending by score, and at most
`maxResults` of them (defaults `5` and `0.1`). -/
theorem searchSimilar_spec (simVal : List ℚ → List ℚ → ℚ)
    (embedder : String → List ℚ) (now : Nat) (cache : Cache)
    (req : OptSearchRequest) (resp : SearchResponse) (cache' : Cache)
    (h : searchSimilar simVal embedder now cache req = (.ok resp, cache')) :
    (∀ c ∈ resp.results, req.threshold.getD (1 / 10) ≤ c.score) ∧
    List.Pairwise (fun a b => b.score ≤ a.score) resp.results ∧
    resp.results.length ≤ req.maxResults.getD 5 := by
  unfold searchSimilar at h
  cases hscan : scanKVs simVal (getQueryEmbedding embedder cache req.query).1
      (req.threshold.getD (1 / 10)) now req.knowledgeVectors with
  | error e => rw [hscan] at h; simp at h
  | ok p =>
    rw [hscan] at h
    obtain ⟨cands, total⟩ := p
    simp only [Prod.mk.injEq] at h
    obtain ⟨h1, _⟩ := h
    have hresp : resp.results = (sortByScoreDesc cands).take
        (req.maxResults.getD 5) := by
      rw [← Except.ok.inj h1]
    refine ⟨?_, ?_, ?_⟩
    · intro c hc
      rw [hresp] at hc
      have hmem : c ∈ sortByScoreDesc cands := List.mem_of_mem_take hc
      exact scanKVs_mem_threshold req.knowledgeVectors cands total hscan c
        (mem_sortByScoreDesc.mp hmem)
    · rw [hresp]
      exact (pairwise_sortByScoreDesc cands).sublist (List.take_sublist _ _)
    · rw [hresp]
      exact le_trans (List.length_take_le _ _) (le_refl _)

/-- Witness for C6 at a concrete one-chunk search (threshold `0`). -/
theorem searchSimilar_spec_witness :
    (∀ c ∈ [({ content := "c", score := 1, metaId := none, knowledgeId := "k", chunkId := "k_chunk_0" } : Candidate)], (0 : ℚ) ≤ c.score) ∧
    List.Pairwise (fun a b => b.score ≤ a.score) [({ content := "c", score := 1, metaId := none, knowledgeId := "k", chunkId := "k_chunk_0" } : Candidate)] ∧
    ([({ content := "c", score := 1, metaId := none, knowledgeId := "k", chunkId := "k_chunk_0" } : Candidate)]).length ≤ 5 :=
  searchSimilar_spec (fun _ _ => 1) (fun _ => [1]) 0 []
    { query := "q", knowledgeVectors := [{ knowledgeId := "k", chunks :=
        [{ content := "c", embedding := some [1], metaId := none }] }],
      maxResults := none, threshold := some 0 }
    { results := [{ content := "c", score := 1, metaId := none, knowledgeId := "k", chunkId := "k_chunk_0" }],
      searchTime := 0, totalCandidates := 1 }
    [("q", [1])] (by rfl)

/-! ## Lemmas about the query-embedding cache -/

theorem cacheSet_length_le (k : String) (v : List ℚ) :
    ∀ (cache : Cache), (cacheSet cache k v).length ≤ cache.length + 1 := by
  intro cache
  induction cache with
  | nil => simp [cacheSet]
  | cons e rest ih =>
    unfold cacheSet
    split
    · simp
    · show (e :: cacheSet rest k v).length ≤ rest.length + 1 + 1
      simp only [List.length_cons]
      omega

theorem getQueryEmbedding_cache_bounded (embedder : String → List ℚ)
    (cache : Cache) (q : String) (h : cache.length ≤ maxCacheSize) :
    ((getQueryEmbedding embedder cache q).2).length ≤ maxCacheSize := by
  unfold getQueryEmbedding
  cases hlook : cacheLookup cache q with
  | some v => exact h
  | none =>
    show (cacheSet (if maxCacheSize ≤ cache.length then cache.drop 1
      else cache) q (embedder q)).length ≤ maxCacheSize
    split
    · rename_i hfull
      have := cacheSet_length_le q (embedder q) (cache.drop 1)
      have hdrop : (cache.drop 1).length = cache.length - 1 := by simp
      unfold maxCacheSize at *
      omega
    · rename_i hroom
      have := cacheSet_length_le q (embedder q) cache
      unfold maxCacheSize at *
      omega

theorem searchSimilar_cache_eq (simVal : List ℚ → List ℚ → ℚ)
    (embedder : String → List ℚ) (now : Nat) (cache : Cache)
    (req : OptSearchRequest) :
    (searchSimilar simVal embedder now cache req).2 =
      (getQueryEmbedding embedder cache req.query).2 := by
  unfold searchSimilar
  cases hscan : scanKVs simVal (getQueryEmbedding embedder cache req.query).1
      (req.threshold.getD (1 / 10)) now req.knowledgeVectors with
  | error e => rfl
  | ok p =>
    obtain ⟨cands, total⟩ := p
    rfl

/-! ## Claim theorems for the query-embedding cache -/

/-- C8 (counterexample): as stated, the claim is false.  A single
`batchSearch` call with 101 distinct queries on an empty cache leaves the
cache at 101 entries, because `batchSearch` calls `Map.set` without the
`maxCacheSize` eviction check of `getQueryEmbedding`. -/
theorem batchSearch_cache_overflow :
    maxCacheSize <
      ((batchSearch (fun _ _ => 0) (fun _ => []) 0 []
        ((List.range 101).map (fun n => toString n)) [] 5 (1 / 10)).2).length := by
  decide

/-- C8 (amended): sequences of `searchSimilar` calls do keep the cache at no
more than `maxCacheSize` (= 100) entries, because `getQueryEmbedding` evicts
the oldest entry before inserting at the limit; `batchSearch`, however,
caches each query embedding without the size check and can exceed the
bound. -/
theorem searchSimilar_cache_bounded :
    (∀ (simVal : List ℚ → List ℚ → ℚ) (embedder : String → List ℚ)
        (now : Nat) (cache : Cache) (req : OptSearchRequest),
        cache.length ≤ maxCacheSize →
        ((searchSimilar simVal embedder now cache req).2).length ≤
          maxCacheSize) ∧
    (∀ (embedder : String → List ℚ) (qs : List String) (cache : Cache),
        cache.length ≤ maxCacheSize →
        (qs.foldl (fun c q => (getQueryEmbedding embedder c q).2)
          cache).length ≤ maxCacheSize) := by
  constructor
  · intro simVal embedder now cache req h
    rw [searchSimilar_cache_eq]
    exact getQueryEmbedding_cache_bounded embedder cache req.query h
  · intro embedder qs
    induction qs with
    | nil =>
      intro cache h
      exact h
    | cons q qs ih =>
      intro cache h
      exact ih _ (getQueryEmbedding_cache_bounded embedder cache q h)

/-- Witness for the amended C8 at a concrete call on an empty cache. -/
theorem searchSimilar_cache_bounded_witness :
    ((searchSimilar (fun _ _ => 0) (fun _ => [1]) 0 []
      { query := "q", knowledgeVectors := [], maxResults := none,
        threshold := none }).2).length ≤ maxCacheSize :=
  searchSimilar_cache_bounded.1 (fun _ _ => 0) (fun _ => [1]) 0 []
    { query := "q", knowledgeVectors := [], maxResults := none,
      threshold := none } (by decide)

/-- C9: `searchSimilarCompat` is a total function (it never throws by
construction of the model), and whenever the underlying `searchSimilar`
call fails with any error — in particular the
`'Vectors must have the same length'` dimension-mismatch throw of
`cosineSimilarity` — the catch block returns
`{ results := [], totalResults := 0 }`. -/
theorem searchSimilarCompat_catches (simVal : List ℚ → List ℚ → ℚ)
    (embedder : String → List ℚ) (now : Nat) (cache : Cache)
    (req : CompatRequest) (kvs : List KnowledgeVector) (e : String)
    (h : (searchSimilar simVal embedder now cache
      (compatRequestOf req kvs)).1 = .error e) :
    (searchSimilarCompat simVal embedder now cache req kvs).1 =
      { results := [], totalResults := 0 } := by
  unfold searchSimilarCompat
  cases hs : searchSimilar simVal embedder now cache (compatRequestOf req kvs) with
  | mk r c =>
    rw [hs] at h
    cases r with
    | error e' => rfl
    | ok resp => simp at h

/-- Witness for C9: a chunk embedding of length 1 against a query embedding
of length 2 makes `cosineSimilarity` throw, and the compat search returns the
empty response. -/
theorem searchSimilarCompat_catches_witness :
    (searchSimilarCompat (fun _ _ => 0) (fun _ => [0, 0]) 0 []
      { query := "q", maxResults := none, similarityThreshold := none,
        filter := none }
      [{ knowledgeId := "k", chunks :=
        [{ content := "c", embedding := some [1], metaId := none }] }]).1 =
      { results := [], totalResults := 0 } :=
  searchSimilarCompat_catches (fun _ _ => 0) (fun _ => [0, 0]) 0 []
    { query := "q", maxResults := none, similarityThreshold := none,
      filter := none }
    [{ knowledgeId := "k", chunks :=
      [{ content := "c", embedding := some [1], metaId := none }] }]
    "Vectors must have the same length" rfl

end AiTools
